import Mathlib

/-!
Verification of `artiq/compiler/inline.py`: a call-site inliner and scope
resolver.  Python syntax trees are shallowly embedded as the inductive `Node`,
host runtime values as `Value`, and the stateful `_ReferenceManager` as the
structure `RM` with explicit state passing.  Host facilities that the module
imports from elsewhere (`artiq.compiler.tools.eval_ast`, the
`artiq.language.experiment` globals, `artiq.language.units.Quantity`) are
modelled from the specification, as marked on each definition.
-/

namespace Inline

/-- Expression context of a reference node (`ast.Load` / `ast.Store`). -/
inductive Ctx where
  | load
  | store
deriving DecidableEq, Repr

/-- Shallow embedding of the Python `ast` nodes that `inline.py` manipulates.
`pyList` represents a host list object sitting in a single-node AST slot
(Python's `NodeTransformer` can store a list there), and `pyNone` represents
the host `None` stored in an AST slot (`ast.Assign(value=None)`). -/
inductive Node where
  | num (n : Int)
  | str (s : String)
  | name (nid : String) (ctx : Ctx)
  | «attribute» (value : Node) (attr : String) (ctx : Ctx)
  | subscript (value : Node) (index : Node) (ctx : Ctx)
  | call (func : Node) (args : List Node)
  | binOp (left : Node) (op : String) (right : Node)
  | assign (targets : List Node) (value : Node)
  | exprStmt (value : Node)
  | functionDef (fname : String) (params : List String) (body : List Node)
  | pyNone
  | pyList (elts : List Node)

/-- The node kinds that belong to Python's `ast.expr` grammar production
(what can legally stand in an expression slot). -/
def Node.isExpr : Node → Bool
  | .num _ => true
  | .str _ => true
  | .name _ _ => true
  | .attribute _ _ _ => true
  | .subscript _ _ _ => true
  | .call _ _ => true
  | .binOp _ _ _ => true
  | _ => false

/-- Members of `_embeddable_calls`: `units.Quantity`, `experiment.delay`,
`experiment.at`, `experiment.now`, `experiment.syscall` and `range`. -/
inductive EmbedOp where
  | quantityCls
  | delayFn
  | atFn
  | nowFn
  | syscallFn
  | rangeCls
deriving DecidableEq, Repr

/-- The `__name__` of each embeddable callable. -/
def EmbedOp.pyName : EmbedOp → String
  | .quantityCls => "Quantity"
  | .delayFn => "delay"
  | .atFn => "at"
  | .nowFn => "now"
  | .syscallFn => "syscall"
  | .rangeCls => "range"

/-- A kernel function as recovered by `ast.parse(inspect.getsource(...))`:
the parsed `FunctionDef` has a name, formal parameter names and a body.
(The `@kernel` decorator line is dropped by `visit_FunctionDef` and is not
carried in the model.) -/
structure KFunc where
  kname : String
  params : List String
  body : List Node

/-- Host runtime values handled by the inliner.  `global` is one of the
`experiment.kernel_globals` singletons, `quantity` a `units.Quantity`
instance, `embed` one of the `_embeddable_calls` callables, `kfunc` a bound
method carrying `k_function_info` (with the identity of the owner it is
bound to), `obj` any other host object identified by its `id()`, and
`astNode` / `astList` a syntax node resp. a host list of syntax nodes
(these flow into argument positions during nested inlining). -/
inductive Value where
  | int (n : Int)
  | str (s : String)
  | global (gname : String)
  | quantity (amount : Int) (unit : String)
  | embed (op : EmbedOp)
  | kfunc (info : KFunc) (selfId : Nat)
  | obj (oid : Nat)
  | astNode (node : Node)
  | astList (nodes : List Node)

mutual
/-- Structural equality test on syntax nodes (used for host object equality
where a node value is compared). -/
def Node.beq : Node → Node → Bool
  | .num a, .num b => decide (a = b)
  | .str a, .str b => decide (a = b)
  | .name a c, .name b d => decide (a = b) && decide (c = d)
  | .attribute v1 a1 c1, .attribute v2 a2 c2 =>
      Node.beq v1 v2 && decide (a1 = a2) && decide (c1 = c2)
  | .subscript v1 i1 c1, .subscript v2 i2 c2 =>
      Node.beq v1 v2 && Node.beq i1 i2 && decide (c1 = c2)
  | .call f1 a1, .call f2 a2 => Node.beq f1 f2 && Node.beqs a1 a2
  | .binOp l1 o1 r1, .binOp l2 o2 r2 =>
      Node.beq l1 l2 && decide (o1 = o2) && Node.beq r1 r2
  | .assign t1 v1, .assign t2 v2 => Node.beqs t1 t2 && Node.beq v1 v2
  | .exprStmt v1, .exprStmt v2 => Node.beq v1 v2
  | .functionDef n1 p1 b1, .functionDef n2 p2 b2 =>
      decide (n1 = n2) && decide (p1 = p2) && Node.beqs b1 b2
  | .pyNone, .pyNone => true
  | .pyList e1, .pyList e2 => Node.beqs e1 e2
  | _, _ => false

/-- Pointwise structural equality on lists of syntax nodes. -/
def Node.beqs : List Node → List Node → Bool
  | [], [] => true
  | a :: as, b :: bs => Node.beq a b && Node.beqs as bs
  | _, _ => false
end

/-- Equality test on host values, as used for dictionary keys (the remote
call registry keys callables by host equality). -/
def Value.vbeq : Value → Value → Bool
  | .int a, .int b => decide (a = b)
  | .str a, .str b => decide (a = b)
  | .global a, .global b => decide (a = b)
  | .quantity a1 u1, .quantity a2 u2 => decide (a1 = a2) && decide (u1 = u2)
  | .embed a, .embed b => decide (a = b)
  | .kfunc i1 s1, .kfunc i2 s2 =>
      decide (i1.kname = i2.kname) && decide (i1.params = i2.params) &&
      Node.beqs i1.body i2.body && decide (s1 = s2)
  | .obj a, .obj b => decide (a = b)
  | .astNode a, .astNode b => Node.beq a b
  | .astList a, .astList b => Node.beqs a b
  | _, _ => false

/-- `id()` of a value used as a scoping key.  The inliner only keys owner
objects, which are modelled as `.obj` values carrying their identity. -/
def pyId : Value → Nat
  | .obj oid => oid
  | _ => 0

/-- An environment (a Python `dict` of name bindings); leftmost entry wins
on lookup, so consing models overwriting. -/
abbrev Env : Type := List (String × Value)

/-- Static data of the host: each owner identity's defining module
`__dict__` (for `inspect.getmodule(obj).__dict__`), and the attributes of
plain host objects (for evaluating attribute references). -/
structure World where
  modules : List (Nat × Env)
  objAttrs : List ((Nat × String) × Value)

/-- Modelled from the spec: `experiment.kernel_globals`, the designated
environment-exposed global singletons (the `experiment` module is not under
`src/`). -/
def kernel_globals : List String := ["sequential", "parallel"]

/-- `_value_to_ast`: encode a runtime value as a literal syntax node, or
`none` ("not representable", no exception). -/
def value_to_ast : Value → Option Node
  | .int n => some (.num n)
  | .str s => some (.str s)
  | .global g =>
      if kernel_globals.contains g then some (.name g .load) else none
  | .quantity a u =>
      some (.call (.name "Quantity" .load)
        [.num a, .name ("base_" ++ u ++ "_unit") .load])
  | _ => none

/-- Modelled from the spec: attribute access during static evaluation
(`getattr` on host objects reached from the defining environment). -/
def attrOf (w : World) : Value → String → Option Value
  | .obj oid, a => w.objAttrs.lookup (oid, a)
  | _, _ => none

/-- Modelled from the spec: `eval_ast` from `artiq.compiler.tools` (not
under `src/`) evaluates an expression against an environment; the supported
foldable shapes are name lookup, attribute access, and numeric/string
literals.  `none` models an evaluation failure (host exception). -/
def eval_ast (w : World) : Node → Env → Option Value
  | .name nid _, env => List.lookup nid env
  | .num n, _ => some (.int n)
  | .str s, _ => some (.str s)
  | .attribute b a _, env => (eval_ast w b env).bind fun v => attrOf w v a
  | _, _ => none

/-- `inspect.getmodule(obj).__dict__` for an owner identity. -/
def moduleOf (w : World) (oid : Nat) : Env := (w.modules.lookup oid).getD []

/-- `_replace_global`: evaluate a reference in the owner's defining module
environment (any failure yields `none`) and encode the result. -/
def replace_global (w : World) (oid : Nat) (ref : Node) : Option Node :=
  match eval_ast w ref (moduleOf w oid) with
  | none => none
  | some v => value_to_ast v

/-- Character for a decimal digit value, as in decimal printing. -/
def digitCh (d : Nat) : Char := Char.ofNat (48 + d)

/-- Fuel-driven most-significant-first decimal digit expansion of a natural
number (empty on zero). -/
def natStrAux : Nat → Nat → List Char
  | 0, _ => []
  | fuel + 1, n =>
      if n = 0 then [] else natStrAux fuel (n / 10) ++ [digitCh (n % 10)]

/-- Python's `str()` of a non-negative integer: its decimal numeral. -/
def natStr (n : Nat) : String := if n = 0 then "0" else ⟨natStrAux (n + 1) n⟩

/-- Python's `base_name[-1].isdigit()` test (the inliner only applies it to
non-empty identifiers). -/
def lastIsDigit (s : String) : Bool :=
  match s.data.getLast? with
  | some c => c.isDigit
  | none => false

/-- The base the allocator actually counts: `new_name` appends an
underscore first when the requested base already looks numeric-suffixed. -/
def normBase (base_name : String) : String :=
  if lastIsDigit base_name then base_name ++ "_" else base_name

/-- The value stored under a scope key in `_ReferenceManager.to_inlined`:
either a `_UserVariable` (a renamed mutable variable) or an arbitrary host
object (a syntax subtree or a folded constant, distinguished at use site by
an `isinstance` check exactly as in the source). -/
inductive Binding where
  | var (vname : String)
  | objv (v : Value)

/-- `_ReferenceManager`: scope-key bindings, the name-allocator use counts,
and the remote-call registry (`rpc_map`, an insertion-ordered association
list standing for `defaultdict(lambda: len(self.rpc_map))`). -/
structure RM where
  to_inlined : List ((Nat × String × String) × Binding)
  use_count : List (String × Nat)
  rpc_map : List (Value × Nat)

/-- `_ReferenceManager.__init__`: empty tables with the reserved names
pre-seeded at use count 1. -/
def RM.init : RM :=
  { to_inlined := []
    use_count :=
      ("Quantity", 1) :: ("base_s_unit", 1) :: ("base_Hz_unit", 1) ::
      (kernel_globals.map fun kg => (kg, 1)) ++ [("range", 1)]
    rpc_map := [] }

/-- The reserved names seeded by `_ReferenceManager.__init__`. -/
def reservedNames : List String :=
  "Quantity" :: "base_s_unit" :: "base_Hz_unit" :: kernel_globals ++ ["range"]

/-- Bump the use count of a base name. -/
def ucBump (l : List (String × Nat)) (k : String) : List (String × Nat) :=
  l.map fun p => if p.1 = k then (p.1, p.2 + 1) else p

/-- `_ReferenceManager.new_name`: append an underscore when the base looks
numeric-suffixed, then either return the base itself (first use) or the base
with the current use count appended. -/
def RM.new_name (rm : RM) (base_name : String) : String × RM :=
  let base := normBase base_name
  match rm.use_count.lookup base with
  | some c =>
      (base ++ natStr c, { rm with use_count := ucBump rm.use_count base })
  | none => (base, { rm with use_count := (base, 1) :: rm.use_count })

/-- `_ReferenceManager.set`: store a host object under a scope key
(dictionary assignment; consing with leftmost-first lookup models
overwriting). -/
def RM.set (rm : RM) (oid : Nat) (funcname lname : String) (value : Value) :
    RM :=
  { rm with to_inlined := ((oid, funcname, lname), .objv value) :: rm.to_inlined }

/-- Errors surfaced by the inliner, mapping the host exceptions raised in
the source: `KeyError` (unresolved reference), the two
`NotImplementedError`s (cannot turn an object into a user variable /
cannot represent an inlined value), `AssertionError`, `ValueError` (more
than one function definition), `AttributeError`, `IndexError`, and the
host recursion limit for unbounded nested inlining. -/
inductive Err where
  | keyError
  | cannotStore
  | cannotRepresent
  | assertionError
  | valueError
  | attributeError
  | indexError
  | recursionLimit
deriving DecidableEq, Repr

/-- The `ctx` attribute of a reference node. -/
def Node.refCtx : Node → Option Ctx
  | .name _ c => some c
  | .attribute _ _ c => some c
  | .subscript _ _ c => some c
  | _ => none

/-- The trailing lines of `_ReferenceManager.get`: on a load-context
reference not otherwise resolved, try `_replace_global`; anything else
raises `KeyError`. -/
def RM.getFallback (w : World) (rm : RM) (oid : Nat) (ref : Node)
    (store : Bool) : Except Err (Node × RM) :=
  if store then .error .keyError
  else
    match replace_global w oid ref with
    | some repl => .ok (repl, rm)
    | none => .error .keyError

/-- `_ReferenceManager.get`: resolve a reference through the scope-key
table, allocating a renamed variable on a first store, substituting bound
subtrees and re-encoding folded constants on loads, and falling back to the
defining module environment. -/
def RM.get (w : World) (rm : RM) (oid : Nat) (funcname : String)
    (ref : Node) : Except Err (Node × RM) :=
  match Node.refCtx ref with
  | none => .error .attributeError
  | some ctx =>
    let store : Bool := decide (ctx = Ctx.store)
    match ref with
    | .name nid _ =>
      match rm.to_inlined.lookup (oid, funcname, nid) with
      | none =>
          if store then
            let (iname, rm') := rm.new_name nid
            .ok (.name iname .store,
              { rm' with
                to_inlined :=
                  ((oid, funcname, nid), .var iname) :: rm'.to_inlined })
          else rm.getFallback w oid ref store
      | some ival =>
        match ival with
        | .var vn => .ok (.name vn ctx, rm)
        | .objv v =>
          match v with
          | .astNode a =>
              if store then .error .assertionError else .ok (a, rm)
          | _ =>
              if store then .error .cannotStore
              else
                match value_to_ast v with
                | none => .error .cannotRepresent
                | some a => .ok (a, rm)
    | _ => rm.getFallback w oid ref store

/-- `_ReferenceManager.get_constants`: all folded-constant bindings of one
owner/function (excluding renamed variables and bound subtrees). -/
def RM.get_constants (rm : RM) (oid : Nat) (funcname : String) : Env :=
  rm.to_inlined.filterMap fun p =>
    match p with
    | ((o, fn, lcl), .objv v) =>
      match v with
      | .astNode _ => none
      | _ =>
          if o = oid ∧ fn = funcname then some (lcl, v) else none
    | _ => none

/-- Lookup in the remote-call registry by host value equality. -/
def rpcLookup (f : Value) : List (Value × Nat) → Option Nat
  | [] => none
  | (g, i) :: t => if Value.vbeq f g then some i else rpcLookup f t

/-- `self.rpc_map[func]` on the `defaultdict`: return the existing id, or
assign the next sequential id (the current registry size) on first use. -/
def RM.rpcId (rm : RM) (f : Value) : Nat × RM :=
  match rpcLookup f rm.rpc_map with
  | some i => (i, rm)
  | none =>
      (rm.rpc_map.length,
        { rm with rpc_map := rm.rpc_map ++ [(f, rm.rpc_map.length)] })

mutual
/-- `_ListReadOnlyParams`: a `NodeVisitor` walk threading the candidate set
(`none` while the `read_only_params` attribute is unset).  The first
`FunctionDef` initializes the set to the formal parameter names; a second
one raises `ValueError`; every store-context `Name` removes its identifier
(`set.remove` with the `KeyError` swallowed). -/
def scanROP : Node → Option (List String) → Except Err (Option (List String))
  | .functionDef _ params body, st =>
    match st with
    | some _ => .error .valueError
    | none => scanROPList body (some params)
  | .name nid c, st =>
      if c = Ctx.store then
        match st with
        | none => .error .attributeError
        | some l => .ok (some (l.filter fun p => p ≠ nid))
      else .ok st
  | .attribute b _ _, st => scanROP b st
  | .subscript b i _, st => do scanROP i (← scanROP b st)
  | .call f args, st => do scanROPList args (← scanROP f st)
  | .binOp l _ r, st => do scanROP r (← scanROP l st)
  | .assign ts v, st => do scanROP v (← scanROPList ts st)
  | .exprStmt v, st => scanROP v st
  | .num _, st => .ok st
  | .str _, st => .ok st
  | .pyNone, st => .ok st
  | .pyList xs, st => scanROPList xs st

/-- Child-list traversal for `_ListReadOnlyParams`. -/
def scanROPList : List Node → Option (List String) →
    Except Err (Option (List String))
  | [], st => .ok st
  | n :: ns, st => do scanROPList ns (← scanROP n st)
end

/-- `_list_read_only_params`: run the analyzer on one function definition
and return the surviving parameter names. -/
def list_read_only_params (funcdef : Node) : Except Err (List String) := do
  match ← scanROP funcdef none with
  | some l => .ok l
  | none => .error .attributeError

/-- The parameter loop of `_initialize_function_params`: a read-only
parameter is bound as a folded constant; any other parameter gets a store
reference resolved (allocating its renamed variable) and one initialization
statement assigning the encoded argument value — the host `None` when the
value is not representable. -/
def initLoop (w : World) (oid : Nat) (funcname : String)
    (rop : List String) :
    List (String × Value) → RM → Except Err (List Node × RM)
  | [], rm => .ok ([], rm)
  | (arg_name, arg_value) :: rest, rm =>
      if arg_name ∈ rop then
        initLoop w oid funcname rop rest (rm.set oid funcname arg_name arg_value)
      else do
        let (target, rm₁) ← RM.get w rm oid funcname (.name arg_name .store)
        let enc := value_to_ast arg_value
        let (pis, rm₂) ← initLoop w oid funcname rop rest rm₁
        .ok (Node.assign [target] (enc.getD Node.pyNone) :: pis, rm₂)

/-- `_initialize_function_params`: analyze read-only parameters, then walk
the formal parameters zipped with the concrete argument values. -/
def init_function_params (w : World) (funcdef : Node) (k_args : List Value)
    (rm : RM) : Except Err (List Node × RM) :=
  match k_args with
  | [] => .error .indexError
  | obj :: _ =>
    match funcdef with
    | .functionDef funcname params _ => do
        let oid := pyId obj
        let rop ← list_read_only_params funcdef
        initLoop w oid funcname rop (params.zip k_args) rm
    | _ => .error .attributeError

/-- Result of one `NodeTransformer.visit`: a single replacement node, or a
host list of statements (what `visit_Call` returns for an inlined call). -/
inductive TRes where
  | one (n : Node)
  | many (ns : List Node)

/-- What lands in a single-node AST slot when a visit result is stored
there (`setattr` semantics: a host list is stored as-is). -/
def TRes.toNode : TRes → Node
  | .one n => n
  | .many l => .pyList l

/-- The visit result as a host object (as passed in an argument list). -/
def TRes.toVal : TRes → Value
  | .one n => .astNode n
  | .many l => .astList l

/-- The environment a call target is evaluated against: the function's
folded constants updated (overridden) by its defining module's bindings.
With leftmost-first lookup, listing the module bindings first models
`calldict.update(self.module.__dict__)`. -/
def callEnv (w : World) (rm : RM) (oid : Nat) (funcname : String) : Env :=
  moduleOf w oid ++ rm.get_constants oid funcname

mutual
/-- `_ReferenceReplacer` dispatch (`NodeTransformer.visit`): references go
through `visit_ref` (= `RM.get`), calls through `visit_Call`, expression
statements through `visit_Expr`, function definitions drop their decorator
list, and every other node kind is traversed by `generic_visit` (list
fields flatten list results; single-node fields store the result as-is).
Fuel models the host recursion limit and decreases on every recursive
visit. -/
def visit : Nat → World → RM → Nat → String → Node →
    Except Err (TRes × RM)
  | 0, _, _, _, _, _ => .error .recursionLimit
  | fuel + 1, w, rm, oid, fname, node =>
    match node with
    | .name nid c => do
        let (r, rm') ← RM.get w rm oid fname (.name nid c)
        .ok (.one r, rm')
    | .attribute b a c => do
        let (r, rm') ← RM.get w rm oid fname (.attribute b a c)
        .ok (.one r, rm')
    | .subscript b i c => do
        let (r, rm') ← RM.get w rm oid fname (.subscript b i c)
        .ok (.one r, rm')
    | .call f args => visit_Call fuel w rm oid fname f args
    | .exprStmt v =>
      match v with
      | .call f args => do
          let (r, rm') ← visit_Call fuel w rm oid fname f args
          match r with
          | .many l => .ok (.many l, rm')
          | .one rn => .ok (.one (.exprStmt rn), rm')
      | _ => do
          let (r, rm') ← visit fuel w rm oid fname v
          .ok (.one (.exprStmt r.toNode), rm')
    | .functionDef fn ps body => do
        let (body', rm') ← visitStmts fuel w rm oid fname body
        .ok (.one (.functionDef fn ps body'), rm')
    | .assign ts v => do
        let (ts', rm₁) ← visitStmts fuel w rm oid fname ts
        let (r, rm₂) ← visit fuel w rm₁ oid fname v
        .ok (.one (.assign ts' r.toNode), rm₂)
    | .binOp l op r => do
        let (lr, rm₁) ← visit fuel w rm oid fname l
        let (rr, rm₂) ← visit fuel w rm₁ oid fname r
        .ok (.one (.binOp lr.toNode op rr.toNode), rm₂)
    | .num n => .ok (.one (.num n), rm)
    | .str s => .ok (.one (.str s), rm)
    | .pyNone => .ok (.one .pyNone, rm)
    | .pyList xs => do
        let (xs', rm') ← visitStmts fuel w rm oid fname xs
        .ok (.one (.pyList xs'), rm')

/-- `_ReferenceReplacer.visit_Call`: statically evaluate the call target
against the folded-constants-plus-module environment, resolve every
argument, then classify: embeddable targets are re-emitted by canonical
name, targets carrying `k_function_info` are recursively inlined with the
target's bound owner prepended to the resolved arguments (the whole
statement list is returned), and everything else becomes a `syscall("rpc",
id, ...)` remote call. -/
def visit_Call : Nat → World → RM → Nat → String → Node → List Node →
    Except Err (TRes × RM)
  | 0, _, _, _, _, _, _ => .error .recursionLimit
  | fuel + 1, w, rm, oid, fname, f, args =>
    match eval_ast w f (callEnv w rm oid fname) with
    | none => .error .keyError
    | some func => do
      let (new_args, rm₁) ← visitArgs fuel w rm oid fname args
      match func with
      | .embed op =>
          .ok (.one (.call (.name op.pyName .load)
            (new_args.map TRes.toNode)), rm₁)
      | .kfunc info selfId => do
          let (inlined, rm₂) ←
            inline fuel w info (.obj selfId :: new_args.map TRes.toVal) rm₁
          .ok (.many inlined, rm₂)
      | other =>
          let (i, rm₂) := rm₁.rpcId other
          .ok (.one (.call (.name "syscall" .load)
            (Node.str "rpc" :: Node.num (Int.ofNat i) ::
              new_args.map TRes.toNode)), rm₂)

/-- The argument list comprehension of `visit_Call`: each argument is
visited and its raw result kept (no list flattening). -/
def visitArgs : Nat → World → RM → Nat → String → List Node →
    Except Err (List TRes × RM)
  | 0, _, _, _, _, _ => .error .recursionLimit
  | _ + 1, _, rm, _, _, [] => .ok ([], rm)
  | fuel + 1, w, rm, oid, fname, a :: rest => do
      let (r, rm₁) ← visit fuel w rm oid fname a
      let (rs, rm₂) ← visitArgs fuel w rm₁ oid fname rest
      .ok (r :: rs, rm₂)

/-- `generic_visit` on a statement-list field: visit each element and
splice list results in place. -/
def visitStmts : Nat → World → RM → Nat → String → List Node →
    Except Err (List Node × RM)
  | 0, _, _, _, _, _ => .error .recursionLimit
  | _ + 1, _, rm, _, _, [] => .ok ([], rm)
  | fuel + 1, w, rm, oid, fname, a :: rest => do
      let (r, rm₁) ← visit fuel w rm oid fname a
      let (rs, rm₂) ← visitStmts fuel w rm₁ oid fname rest
      match r with
      | .one n => .ok (n :: rs, rm₂)
      | .many l => .ok (l ++ rs, rm₂)

/-- `inline`: build the parsed `FunctionDef`, initialize the parameter
bindings, run the reference replacer over it, prepend the
parameter-initialization statements, and return the flattened body (the
shared reference manager carries the remote-call registry). -/
def inline : Nat → World → KFunc → List Value → RM →
    Except Err (List Node × RM)
  | 0, _, _, _, _ => .error .recursionLimit
  | fuel + 1, w, k, k_args, rm =>
    match k_args with
    | [] => .error .indexError
    | obj :: _ => do
        let funcdef := Node.functionDef k.kname k.params k.body
        let (param_init, rm₁) ← init_function_params w funcdef k_args rm
        let (r, rm₂) ← visit fuel w rm₁ (pyId obj) k.kname funcdef
        match r with
        | .one (.functionDef _ _ newBody) => .ok (param_init ++ newBody, rm₂)
        | _ => .error .assertionError
end

/-! ### Specification-side definitions

These definitions restate properties in the words of the specification and
are compared against the code-derived definitions above. -/

/-- Spec-side: a value is representable when it is a primitive number, a
primitive string, a recognized global singleton (matched against the fixed
registry), or a physical-quantity object. -/
def representable : Value → Bool
  | .int _ => true
  | .str _ => true
  | .global g => kernel_globals.contains g
  | .quantity _ _ => true
  | _ => false

mutual
/-- Spec-side: every identifier occurring as a store-context plain-name
reference anywhere inside a node. -/
def storeNames : Node → List String
  | .name nid c => if c = Ctx.store then [nid] else []
  | .attribute b _ _ => storeNames b
  | .subscript b i _ => storeNames b ++ storeNames i
  | .call f args => storeNames f ++ storeNamesList args
  | .binOp l _ r => storeNames l ++ storeNames r
  | .assign ts v => storeNamesList ts ++ storeNames v
  | .exprStmt v => storeNames v
  | .functionDef _ _ body => storeNamesList body
  | .num _ => []
  | .str _ => []
  | .pyNone => []
  | .pyList xs => storeNamesList xs

/-- Spec-side: store-context identifiers of a node list. -/
def storeNamesList : List Node → List String
  | [] => []
  | n :: ns => storeNames n ++ storeNamesList ns
end

/-- Run the name allocator on a sequence of base-name requests within one
session, collecting the returned names. -/
def allocRun : RM → List String → List String × RM
  | rm, [] => ([], rm)
  | rm, b :: bs =>
      let p := rm.new_name b
      let q := allocRun p.2 bs
      (p.1 :: q.1, q.2)

/-- Spec-side: the remote-call ids are dense and zero-based — read in
insertion order they are exactly `0, 1, 2, …`. -/
def rpcDense (rm : RM) : Prop :=
  rm.rpc_map.map Prod.snd = List.range rm.rpc_map.length

/-- Allocator invariant: every base recorded in the use-count table is a
non-empty string not ending in a digit, with a positive count. -/
def ucWF (rm : RM) : Prop :=
  ∀ p ∈ rm.use_count, p.1 ≠ "" ∧ lastIsDigit p.1 = false ∧ 1 ≤ p.2

/-- Names accounted for by the allocator state: every recorded base itself
and every suffixed name it may have handed out so far. -/
def covered (rm : RM) (n : String) : Prop :=
  ∃ b c, rm.use_count.lookup b = some c ∧
    (n = b ∨ ∃ k, 1 ≤ k ∧ k < c ∧ n = b ++ natStr k)

/-- The numeric value read back from a most-significant-first decimal digit
list. -/
def valOfDigits (l : List Char) : Nat :=
  l.foldl (fun a c => 10 * a + (c.toNat - 48)) 0

/-- Concrete host world used to instantiate theorems: one owner (identity
1) whose defining module exposes `range`, a plain host function, a kernel
function `g`, and an integer global. -/
def gFixture : KFunc :=
  ⟨"g", ["self", "t"],
    [Node.exprStmt (.call (.name "hostFn" .load) [.name "t" .load])]⟩

/-- Fixture kernel function with a mutable parameter: `y` is reassigned
(`y = y + 1`). -/
def kMut : KFunc :=
  ⟨"f", ["self", "y"],
    [Node.assign [.name "y" .store] (.binOp (.name "y" .load) "+" (.num 1))]⟩

/-- Fixture callee for nested inlining: `g(self)` makes one host call. -/
def kg0 : KFunc :=
  ⟨"g", ["self"], [Node.exprStmt (.call (.name "hostFn" .load) [])]⟩

/-- Fixture world whose module binds `g` to a kernel function bound to
owner 1 and `hostFn` to a plain host callable. -/
def wNest : World :=
  ⟨[(1, [("g", Value.kfunc kg0 1), ("hostFn", Value.obj 99)])], []⟩

/-- Fixture caller with a value-producing call to the kernel function `g`:
`r = g()`. -/
def kVP : KFunc :=
  ⟨"f", ["self"], [Node.assign [.name "r" .store] (.call (.name "g" .load) [])]⟩

/-- The host world of the fixtures. -/
def wFixture : World :=
  ⟨[(1, [("rangeB", Value.embed .rangeCls), ("range", Value.embed .rangeCls),
      ("hostFn", Value.obj 99), ("g", Value.kfunc gFixture 1),
      ("lim", Value.int 4)])], []⟩

/-! ### Helper lemmas -/

theorem exc_bind_ok {ε α β : Type} (a : α) (f : α → Except ε β) :
    (Except.ok a >>= f) = f a := rfl

theorem exc_bind_err {ε α β : Type} (e : ε) (f : α → Except ε β) :
    ((Except.error e : Except ε α) >>= f) = .error e := rfl

theorem beq_eval {α : Type} [BEq α] [LawfulBEq α] [DecidableEq α]
    (a b : α) : (a == b) = decide (a = b) := by
  by_cases h : a = b <;> simp [h]

theorem lookup_append {α β : Type} [BEq α] (k : α) (l₁ l₂ : List (α × β)) :
    List.lookup k (l₁ ++ l₂) =
      match List.lookup k l₁ with
      | some v => some v
      | none => List.lookup k l₂ := by
  induction l₁ with
  | nil => simp [List.lookup]
  | cons p t ih =>
      obtain ⟨a, b⟩ := p
      simp only [List.cons_append, List.lookup]
      cases h : k == a <;> simp [ih]

mutual
theorem Node.beq_refl : (a : Node) → Node.beq a a = true
  | .num _ => by simp [Node.beq]
  | .str _ => by simp [Node.beq]
  | .name _ _ => by simp [Node.beq]
  | .attribute v _ _ => by simp [Node.beq, Node.beq_refl v]
  | .subscript v i _ => by simp [Node.beq, Node.beq_refl v, Node.beq_refl i]
  | .call f as => by simp [Node.beq, Node.beq_refl f, Node.beqs_refl as]
  | .binOp l _ r => by simp [Node.beq, Node.beq_refl l, Node.beq_refl r]
  | .assign ts v => by simp [Node.beq, Node.beqs_refl ts, Node.beq_refl v]
  | .exprStmt v => by simp [Node.beq, Node.beq_refl v]
  | .functionDef _ _ b => by simp [Node.beq, Node.beqs_refl b]
  | .pyNone => by simp [Node.beq]
  | .pyList l => by simp [Node.beq, Node.beqs_refl l]

theorem Node.beqs_refl : (as : List Node) → Node.beqs as as = true
  | [] => by simp [Node.beqs]
  | a :: t => by simp [Node.beqs, Node.beq_refl a, Node.beqs_refl t]
end

theorem Value.vbeq_refl : (v : Value) → Value.vbeq v v = true
  | .int _ => by simp [Value.vbeq]
  | .str _ => by simp [Value.vbeq]
  | .global _ => by simp [Value.vbeq]
  | .quantity _ _ => by simp [Value.vbeq]
  | .embed _ => by simp [Value.vbeq]
  | .kfunc i _ => by simp [Value.vbeq, Node.beqs_refl i.body]
  | .obj _ => by simp [Value.vbeq]
  | .astNode a => by simp [Value.vbeq, Node.beq_refl a]
  | .astList l => by simp [Value.vbeq, Node.beqs_refl l]

theorem rpcLookup_append_fresh (f : Value) (m : Nat) :
    ∀ l : List (Value × Nat), rpcLookup f l = none →
      rpcLookup f (l ++ [(f, m)]) = some m := by
  intro l
  induction l with
  | nil => intro _; simp [rpcLookup, Value.vbeq_refl]
  | cons p t ih =>
      obtain ⟨g, i⟩ := p
      intro h
      simp only [rpcLookup] at h ⊢
      cases hb : Value.vbeq f g with
      | true => simp [hb] at h
      | false => simp only [hb, if_neg] at h ⊢; simp [ih h]

theorem filter_notin_append (l xs ys : List String) :
    ((l.filter fun p => p ∉ xs).filter fun p => p ∉ ys) =
      l.filter fun p => p ∉ xs ++ ys := by
  induction l with
  | nil => rfl
  | cons a t ih =>
      by_cases h1 : a ∈ xs <;> by_cases h2 : a ∈ ys <;>
        simp [h1, h2, ih, List.mem_append, Bool.and_comm]

mutual
theorem scanROP_some : (n : Node) → ∀ (l : List String) st,
    scanROP n (some l) = .ok st →
    st = some (l.filter fun p => p ∉ storeNames n)
  | .num _ => by
      intro l st h
      simp [scanROP] at h
      simp [storeNames, ← h]
  | .str _ => by
      intro l st h
      simp [scanROP] at h
      simp [storeNames, ← h]
  | .pyNone => by
      intro l st h
      simp [scanROP] at h
      simp [storeNames, ← h]
  | .name nid c => by
      intro l st h
      cases c with
      | store =>
          simp [scanROP] at h
          simp [storeNames, ← h]
      | load =>
          simp [scanROP] at h
          simp [storeNames, ← h]
  | .attribute b a c => by
      intro l st h
      have := scanROP_some b l st (by simpa [scanROP] using h)
      simpa [storeNames] using this
  | .exprStmt v => by
      intro l st h
      have := scanROP_some v l st (by simpa [scanROP] using h)
      simpa [storeNames] using this
  | .functionDef fn ps body => by
      intro l st h
      simp [scanROP] at h
  | .subscript b i c => by
      intro l st h
      simp only [scanROP] at h
      cases hb : scanROP b (some l) with
      | error e => rw [hb, exc_bind_err] at h; exact absurd h (by simp)
      | ok st₁ =>
          rw [hb, exc_bind_ok] at h
          rw [scanROP_some b l st₁ hb] at h
          rw [scanROP_some i _ st h]
          simp [storeNames, filter_notin_append, Bool.and_comm]
  | .binOp le o r => by
      intro l st h
      simp only [scanROP] at h
      cases hb : scanROP le (some l) with
      | error e => rw [hb, exc_bind_err] at h; exact absurd h (by simp)
      | ok st₁ =>
          rw [hb, exc_bind_ok] at h
          rw [scanROP_some le l st₁ hb] at h
          rw [scanROP_some r _ st h]
          simp [storeNames, filter_notin_append, Bool.and_comm]
  | .call f args => by
      intro l st h
      simp only [scanROP] at h
      cases hb : scanROP f (some l) with
      | error e => rw [hb, exc_bind_err] at h; exact absurd h (by simp)
      | ok st₁ =>
          rw [hb, exc_bind_ok] at h
          rw [scanROP_some f l st₁ hb] at h
          rw [scanROPList_some args _ st h]
          simp [storeNames, filter_notin_append, Bool.and_comm]
  | .assign ts v => by
      intro l st h
      simp only [scanROP] at h
      cases hb : scanROPList ts (some l) with
      | error e => rw [hb, exc_bind_err] at h; exact absurd h (by simp)
      | ok st₁ =>
          rw [hb, exc_bind_ok] at h
          rw [scanROPList_some ts l st₁ hb] at h
          rw [scanROP_some v _ st h]
          simp [storeNames, filter_notin_append, Bool.and_comm]
  | .pyList xs => by
      intro l st h
      have := scanROPList_some xs l st (by simpa [scanROP] using h)
      simpa [storeNames] using this

theorem scanROPList_some : (ns : List Node) → ∀ (l : List String) st,
    scanROPList ns (some l) = .ok st →
    st = some (l.filter fun p => p ∉ storeNamesList ns)
  | [] => by
      intro l st h
      simp [scanROPList] at h
      simp [storeNamesList, ← h]
  | n :: ns => by
      intro l st h
      simp only [scanROPList] at h
      cases hb : scanROP n (some l) with
      | error e => rw [hb, exc_bind_err] at h; exact absurd h (by simp)
      | ok st₁ =>
          rw [hb, exc_bind_ok] at h
          rw [scanROP_some n l st₁ hb] at h
          rw [scanROPList_some ns _ st h]
          simp [storeNamesList, filter_notin_append, Bool.and_comm]
end

theorem lrop_eq (fn : String) (ps : List String) (body : List Node)
    (rop : List String)
    (h : list_read_only_params (.functionDef fn ps body) = .ok rop) :
    rop = ps.filter fun p => p ∉ storeNamesList body := by
  simp only [list_read_only_params, scanROP] at h
  cases hb : scanROPList body (some ps) with
  | error e => rw [hb, exc_bind_err] at h; exact absurd h (by simp)
  | ok st =>
      rw [hb, exc_bind_ok] at h
      rw [scanROPList_some body ps st hb] at h
      simpa using h.symm

theorem get_store_name (w : World) (rm : RM) (oid : Nat) (fn x : String)
    (tgt : Node) (rm' : RM)
    (h : RM.get w rm oid fn (.name x .store) = .ok (tgt, rm')) :
    ∃ t, tgt = .name t .store := by
  simp only [RM.get, Node.refCtx] at h
  cases hl : rm.to_inlined.lookup (oid, fn, x) with
  | none =>
      rw [hl] at h
      simp at h
      exact ⟨(rm.new_name x).1, h.1.symm⟩
  | some ival =>
      rw [hl] at h
      cases ival with
      | var vn =>
          simp at h
          exact ⟨vn, h.1.symm⟩
      | objv v => cases v <;> simp at h

theorem new_name_frame (rm : RM) (b : String) :
    (rm.new_name b).2.to_inlined = rm.to_inlined ∧
    (rm.new_name b).2.rpc_map = rm.rpc_map := by
  unfold RM.new_name
  cases h : rm.use_count.lookup (normBase b) <;> simp [h]

theorem get_store_frame (w : World) (rm : RM) (oid : Nat) (fn x : String)
    (tgt : Node) (rm' : RM)
    (h : RM.get w rm oid fn (.name x .store) = .ok (tgt, rm')) :
    (∀ p, p ≠ x →
      rm'.to_inlined.lookup (oid, fn, p) = rm.to_inlined.lookup (oid, fn, p)) ∧
    rm'.rpc_map = rm.rpc_map := by
  simp only [RM.get, Node.refCtx] at h
  cases hl : rm.to_inlined.lookup (oid, fn, x) with
  | none =>
      rw [hl] at h
      simp at h
      constructor
      · intro p hp
        rw [← h.2]
        simp only [List.lookup]
        have hbeq : ((oid, fn, p) == (oid, fn, x)) = false := by
          simp [hp]
        rw [hbeq]
        simp [(new_name_frame rm x).1]
      · rw [← h.2]
        simp [(new_name_frame rm x).2]
  | some ival =>
      rw [hl] at h
      cases ival with
      | var vn =>
          simp at h
          rw [← h.2]
          exact ⟨fun _ _ => rfl, rfl⟩
      | objv v => cases v <;> simp at h

theorem initLoop_shape (w : World) (oid : Nat) (fn : String)
    (rop : List String) :
    ∀ (pairs : List (String × Value)) (rm : RM) (pi : List Node) (rm' : RM),
      initLoop w oid fn rop pairs rm = .ok (pi, rm') →
      List.Forall₂ (fun (q : String × Value) (st : Node) =>
          ∃ t, st = Node.assign [.name t .store]
            ((value_to_ast q.2).getD .pyNone))
        (pairs.filter fun q => decide (q.1 ∉ rop)) pi := by
  intro pairs
  induction pairs with
  | nil =>
      intro rm pi rm' h
      simp [initLoop] at h
      simp [← h.1]
  | cons q rest ih =>
      obtain ⟨nm, vv⟩ := q
      intro rm pi rm' h
      simp only [initLoop] at h
      by_cases hm : nm ∈ rop
      · rw [if_pos hm] at h
        have := ih _ _ _ h
        simpa [hm] using this
      · rw [if_neg hm] at h
        cases hg : RM.get w rm oid fn (.name nm .store) with
        | error e => rw [hg, exc_bind_err] at h; exact absurd h (by simp)
        | ok pr =>
            obtain ⟨tgt, rmA⟩ := pr
            rw [hg, exc_bind_ok] at h
            cases hr : initLoop w oid fn rop rest rmA with
            | error e => rw [hr, exc_bind_err] at h; exact absurd h (by simp)
            | ok pr₂ =>
                obtain ⟨pis, rmB⟩ := pr₂
                rw [hr, exc_bind_ok] at h
                simp at h
                obtain ⟨t, ht⟩ := get_store_name w rm oid fn nm tgt rmA hg
                subst ht
                rw [← h.1]
                simp only [List.filter_cons, hm, not_false_eq_true,
                  decide_True]
                exact List.Forall₂.cons ⟨t, rfl⟩ (ih _ _ _ hr)

theorem initLoop_frame (w : World) (oid : Nat) (fn : String)
    (rop : List String) :
    ∀ (pairs : List (String × Value)) (rm : RM) (pi : List Node) (rm' : RM),
      initLoop w oid fn rop pairs rm = .ok (pi, rm') →
      ∀ p, p ∉ pairs.map Prod.fst →
        rm'.to_inlined.lookup (oid, fn, p) =
          rm.to_inlined.lookup (oid, fn, p) := by
  intro pairs
  induction pairs with
  | nil =>
      intro rm pi rm' h p _
      simp [initLoop] at h
      rw [← h.2]
  | cons q rest ih =>
      obtain ⟨nm, vv⟩ := q
      intro rm pi rm' h p hp
      simp only [List.map_cons, List.mem_cons, not_or] at hp
      obtain ⟨hpn, hprest⟩ := hp
      simp only [initLoop] at h
      by_cases hm : nm ∈ rop
      · rw [if_pos hm] at h
        rw [ih _ _ _ h p hprest]
        simp only [RM.set, List.lookup]
        have hbeq : ((oid, fn, p) == (oid, fn, nm)) = false := by
          simp [hpn]
        rw [hbeq]
      · rw [if_neg hm] at h
        cases hg : RM.get w rm oid fn (.name nm .store) with
        | error e => rw [hg, exc_bind_err] at h; exact absurd h (by simp)
        | ok pr =>
            obtain ⟨tgt, rmA⟩ := pr
            rw [hg, exc_bind_ok] at h
            cases hr : initLoop w oid fn rop rest rmA with
            | error e => rw [hr, exc_bind_err] at h; exact absurd h (by simp)
            | ok pr₂ =>
                obtain ⟨pis, rmB⟩ := pr₂
                rw [hr, exc_bind_ok] at h
                simp at h
                rw [← h.2]
                rw [ih _ _ _ hr p hprest]
                exact (get_store_frame w rm oid fn nm tgt rmA hg).1 p hpn

theorem initLoop_found (w : World) (oid : Nat) (fn : String)
    (rop : List String) (p : String) (v : Value) :
    ∀ (pre post : List (String × Value)) (rm : RM) (pi : List Node)
      (rm' : RM),
      initLoop w oid fn rop (pre ++ (p, v) :: post) rm = .ok (pi, rm') →
      p ∈ rop → p ∉ pre.map Prod.fst → p ∉ post.map Prod.fst →
      rm'.to_inlined.lookup (oid, fn, p) = some (Binding.objv v) := by
  intro pre
  induction pre with
  | nil =>
      intro post rm pi rm' h hrop _ hpost
      simp only [List.nil_append, initLoop, if_pos hrop] at h
      rw [initLoop_frame w oid fn rop post _ _ _ h p hpost]
      simp [RM.set, List.lookup]
  | cons q pre' ih =>
      obtain ⟨nm, vv⟩ := q
      intro post rm pi rm' h hrop hpre hpost
      simp only [List.map_cons, List.mem_cons, not_or] at hpre
      obtain ⟨hpn, hpre'⟩ := hpre
      simp only [List.cons_append, initLoop, List.append_eq] at h
      by_cases hm : nm ∈ rop
      · rw [if_pos hm] at h
        exact ih post _ _ _ h hrop hpre' hpost
      · rw [if_neg hm] at h
        cases hg : RM.get w rm oid fn (.name nm .store) with
        | error e => rw [hg, exc_bind_err] at h; exact absurd h (by simp)
        | ok pr =>
            obtain ⟨tgt, rmA⟩ := pr
            rw [hg, exc_bind_ok] at h
            cases hr : initLoop w oid fn rop (pre' ++ (p, v) :: post) rmA with
            | error e => rw [hr, exc_bind_err] at h; exact absurd h (by simp)
            | ok pr₂ =>
                obtain ⟨pis, rmB⟩ := pr₂
                rw [hr, exc_bind_ok] at h
                simp at h
                rw [← h.2]
                exact ih post _ _ _ hr hrop hpre' hpost

theorem get_load_const (w : World) (rm : RM) (oid : Nat) (fn p : String)
    (v : Value) (a : Node)
    (hb : rm.to_inlined.lookup (oid, fn, p) = some (Binding.objv v))
    (henc : value_to_ast v = some a) :
    RM.get w rm oid fn (.name p .load) = .ok (a, rm) := by
  simp only [RM.get, Node.refCtx]
  rw [hb]
  cases v <;> simp_all [value_to_ast]

/-! ### Claim theorems -/

/-- C7: the value encoder returns a literal syntax node exactly for
primitive numbers, primitive strings, registry-recognized global
singletons, and physical-quantity objects (encoded as a `Quantity`
constructor call over the amount and the named base-unit constant); on
every other value it returns "not representable" (`none`, no exception). -/
theorem C7_value_encoder_contract :
    (∀ v, (value_to_ast v).isSome = representable v) ∧
    (∀ n, value_to_ast (.int n) = some (.num n)) ∧
    (∀ s, value_to_ast (.str s) = some (.str s)) ∧
    (∀ g, kernel_globals.contains g = true →
      value_to_ast (.global g) = some (.name g .load)) ∧
    (∀ a u, value_to_ast (.quantity a u) =
      some (.call (.name "Quantity" .load)
        [.num a, .name ("base_" ++ u ++ "_unit") .load])) := by
  refine ⟨?_, fun _ => rfl, fun _ => rfl, ?_, fun _ _ => rfl⟩
  · intro v
    cases v <;> simp [value_to_ast, representable]
    split <;> simp_all
  · intro g hg
    simp at hg
    simp [value_to_ast, hg]

/-- Witness for C7 at concrete inputs: the `parallel` singleton is in the
registry and encodes to a name literal. -/
theorem C7_value_encoder_contract_witness :
    value_to_ast (.global "parallel") = some (.name "parallel" .load) :=
  C7_value_encoder_contract.2.2.2.1 "parallel" (by decide)

/-- C6: a load-context name reference with no scope-key binding is
evaluated against the defining module environment; if evaluation succeeds
and the value is encodable the encoded literal is returned, and in every
other case (evaluation failure, or unencodable value) resolution fails with
`KeyError` (the unresolved-reference failure). -/
theorem C6_unresolved_load_reference (w : World) (rm : RM) (oid : Nat)
    (fn nid : String)
    (hnb : rm.to_inlined.lookup (oid, fn, nid) = none) :
    (∀ v a, eval_ast w (.name nid .load) (moduleOf w oid) = some v →
        value_to_ast v = some a →
        RM.get w rm oid fn (.name nid .load) = .ok (a, rm)) ∧
    (∀ v, eval_ast w (.name nid .load) (moduleOf w oid) = some v →
        value_to_ast v = none →
        RM.get w rm oid fn (.name nid .load) = .error .keyError) ∧
    (eval_ast w (.name nid .load) (moduleOf w oid) = none →
        RM.get w rm oid fn (.name nid .load) = .error .keyError) := by
  refine ⟨?_, ?_, ?_⟩
  · intro v a hev henc
    simp only [RM.get, Node.refCtx, RM.getFallback, replace_global]
    rw [hnb, hev]
    simp [henc]
  · intro v hev henc
    simp only [RM.get, Node.refCtx, RM.getFallback, replace_global]
    rw [hnb, hev]
    simp [henc]
  · intro hev
    simp only [RM.get, Node.refCtx, RM.getFallback, replace_global]
    rw [hnb, hev]
    simp

/-- Witness for C6: in the fixture world the module-level `lim` resolves to
the literal `4`, while an unknown name fails with `KeyError`. -/
theorem C6_unresolved_load_reference_witness :
    RM.get wFixture RM.init 1 "f" (.name "lim" .load) =
      .ok (.num 4, RM.init) ∧
    RM.get wFixture RM.init 1 "f" (.name "nope" .load) =
      .error .keyError := by
  constructor
  · exact (C6_unresolved_load_reference wFixture RM.init 1 "f" "lim"
      rfl).1 (.int 4) (.num 4) rfl rfl
  · exact (C6_unresolved_load_reference wFixture RM.init 1 "f" "nope"
      rfl).2.2 rfl

/-- C10: only plain-name references can be bound — a store-context
attribute or subscript reference always fails with `KeyError` regardless of
the manager state, and a load-context one succeeds exactly when it
evaluates to an encodable value in the defining module environment. -/
theorem C10_non_name_references (w : World) (rm : RM) (oid : Nat)
    (fn : String) :
    (∀ b a, RM.get w rm oid fn (.attribute b a .store) = .error .keyError) ∧
    (∀ b i, RM.get w rm oid fn (.subscript b i .store) = .error .keyError) ∧
    (∀ b a r rm', RM.get w rm oid fn (.attribute b a .load) = .ok (r, rm') ↔
        (replace_global w oid (.attribute b a .load) = some r ∧ rm' = rm)) ∧
    (∀ b i r rm', RM.get w rm oid fn (.subscript b i .load) = .ok (r, rm') ↔
        (replace_global w oid (.subscript b i .load) = some r ∧ rm' = rm)) := by
  refine ⟨?_, ?_, ?_, ?_⟩
  · intro b a; simp [RM.get, Node.refCtx, RM.getFallback]
  · intro b i; simp [RM.get, Node.refCtx, RM.getFallback]
  · intro b a r rm'
    simp only [RM.get, Node.refCtx, RM.getFallback]
    cases h : replace_global w oid (.attribute b a .load) <;>
      simp [h, eq_comm, and_comm]
  · intro b i r rm'
    simp only [RM.get, Node.refCtx, RM.getFallback]
    cases h : replace_global w oid (.subscript b i .load) <;>
      simp [h, eq_comm, and_comm]

/-- C9: in the call-target evaluation environment the defining module's
bindings override the folded constants of the owner/function — a name bound
in both resolves to the module value. -/
theorem C9_module_shadows_constants (w : World) (rm : RM) (oid : Nat)
    (fn n : String) :
    (∀ v, (moduleOf w oid).lookup n = some v →
      eval_ast w (.name n .load) (callEnv w rm oid fn) = some v) ∧
    ((moduleOf w oid).lookup n = none →
      eval_ast w (.name n .load) (callEnv w rm oid fn) =
        (rm.get_constants oid fn).lookup n) := by
  constructor
  · intro v h; simp [eval_ast, callEnv, lookup_append, h]
  · intro h; simp [eval_ast, callEnv, lookup_append, h]

/-- Witness for C9: a folded constant `lim = 1` is shadowed by the module
binding `lim = 4` when the call environment is consulted. -/
theorem C9_module_shadows_constants_witness :
    eval_ast wFixture (.name "lim" .load)
      (callEnv wFixture (RM.set RM.init 1 "f" "lim" (.int 1)) 1 "f") =
      some (.int 4) ∧
    (RM.get_constants (RM.set RM.init 1 "f" "lim" (.int 1)) 1 "f").lookup
      "lim" = some (.int 1) := by
  constructor
  · exact (C9_module_shadows_constants wFixture
      (RM.set RM.init 1 "f" "lim" (.int 1)) 1 "f" "lim").1 (.int 4) rfl
  · rfl

/-! ### Remote-call registry preservation -/

theorem dense_of_frame {rm rm' : RM} (h : rm'.rpc_map = rm.rpc_map)
    (hd : rpcDense rm) : rpcDense rm' := by
  unfold rpcDense at *
  rw [h]
  exact hd

theorem rpcId_dense (rm : RM) (f : Value) (hd : rpcDense rm) :
    rpcDense (rm.rpcId f).2 := by
  unfold RM.rpcId
  cases h : rpcLookup f rm.rpc_map with
  | some i => exact hd
  | none =>
      unfold rpcDense at *
      simp [hd, List.range_succ]

theorem getFallback_rpc_frame (w : World) (rm : RM) (oid : Nat) (ref : Node)
    (store : Bool) (r : Node) (rm' : RM)
    (h : RM.getFallback w rm oid ref store = .ok (r, rm')) :
    rm' = rm := by
  unfold RM.getFallback at h
  cases store with
  | true => simp at h
  | false =>
      simp only [Bool.false_eq_true, if_false] at h
      cases hg : replace_global w oid ref with
      | none => rw [hg] at h; simp at h
      | some repl => rw [hg] at h; simp at h; exact h.2.symm

theorem get_rpc_frame (w : World) (rm : RM) (oid : Nat) (fn : String)
    (ref : Node) (r : Node) (rm' : RM)
    (h : RM.get w rm oid fn ref = .ok (r, rm')) :
    rm'.rpc_map = rm.rpc_map := by
  cases ref with
  | name nid c =>
      simp only [RM.get, Node.refCtx] at h
      cases hl : rm.to_inlined.lookup (oid, fn, nid) with
      | none =>
          rw [hl] at h
          cases c with
          | store =>
              rw [if_pos (by decide)] at h
              simp at h
              rw [← h.2]
              exact (new_name_frame rm nid).2
          | load =>
              rw [if_neg (by decide)] at h
              rw [getFallback_rpc_frame w rm oid _ _ r rm' h]
      | some ival =>
          rw [hl] at h
          cases ival with
          | var vn => simp at h; rw [← h.2]
          | objv v =>
              cases c with
              | store =>
                  cases v <;> (rw [if_pos (by decide)] at h; simp at h)
              | load =>
                  cases v <;> simp [value_to_ast] at h
                  all_goals
                    (first
                      | (rw [← h.2])
                      | (split at h <;> simp at h))
                  all_goals rw [← h.2]
  | «attribute» b a c =>
      simp only [RM.get, Node.refCtx] at h
      rw [getFallback_rpc_frame w rm oid _ _ r rm' h]
  | subscript b i c =>
      simp only [RM.get, Node.refCtx] at h
      rw [getFallback_rpc_frame w rm oid _ _ r rm' h]
  | num n => simp [RM.get, Node.refCtx] at h
  | str s => simp [RM.get, Node.refCtx] at h
  | call f as => simp [RM.get, Node.refCtx] at h
  | binOp l o ri => simp [RM.get, Node.refCtx] at h
  | assign ts v => simp [RM.get, Node.refCtx] at h
  | exprStmt v => simp [RM.get, Node.refCtx] at h
  | functionDef a b cc => simp [RM.get, Node.refCtx] at h
  | pyNone => simp [RM.get, Node.refCtx] at h
  | pyList xs => simp [RM.get, Node.refCtx] at h

theorem initLoop_rpc_frame (w : World) (oid : Nat) (fn : String)
    (rop : List String) :
    ∀ (pairs : List (String × Value)) (rm : RM) (pi : List Node) (rm' : RM),
      initLoop w oid fn rop pairs rm = .ok (pi, rm') →
      rm'.rpc_map = rm.rpc_map := by
  intro pairs
  induction pairs with
  | nil =>
      intro rm pi rm' h
      simp [initLoop] at h
      rw [← h.2]
  | cons q rest ih =>
      obtain ⟨nm, vv⟩ := q
      intro rm pi rm' h
      simp only [initLoop] at h
      by_cases hm : nm ∈ rop
      · rw [if_pos hm] at h
        rw [ih _ _ _ h]
        rfl
      · rw [if_neg hm] at h
        cases hg : RM.get w rm oid fn (.name nm .store) with
        | error e => rw [hg, exc_bind_err] at h; exact absurd h (by simp)
        | ok pr =>
            obtain ⟨tgt, rmA⟩ := pr
            rw [hg, exc_bind_ok] at h
            cases hr : initLoop w oid fn rop rest rmA with
            | error e => rw [hr, exc_bind_err] at h; exact absurd h (by simp)
            | ok pr₂ =>
                obtain ⟨pis, rmB⟩ := pr₂
                rw [hr, exc_bind_ok] at h
                simp at h
                rw [← h.2, ih _ _ _ hr,
                  get_rpc_frame w rm oid fn _ tgt rmA hg]

theorem init_params_rpc_frame (w : World) (fd : Node) (kargs : List Value)
    (rm : RM) (pi : List Node) (rm' : RM)
    (h : init_function_params w fd kargs rm = .ok (pi, rm')) :
    rm'.rpc_map = rm.rpc_map := by
  cases kargs with
  | nil => simp [init_function_params] at h
  | cons obj rest =>
      cases fd with
      | functionDef fn ps body =>
          simp only [init_function_params] at h
          cases hl : list_read_only_params (.functionDef fn ps body) with
          | error e => rw [hl, exc_bind_err] at h; exact absurd h (by simp)
          | ok rop =>
              rw [hl, exc_bind_ok] at h
              exact initLoop_rpc_frame w (pyId obj) fn rop _ rm pi rm' h
      | num n => simp [init_function_params] at h
      | str s => simp [init_function_params] at h
      | name a b => simp [init_function_params] at h
      | «attribute» a b c => simp [init_function_params] at h
      | subscript a b c => simp [init_function_params] at h
      | call a b => simp [init_function_params] at h
      | binOp a b c => simp [init_function_params] at h
      | assign a b => simp [init_function_params] at h
      | exprStmt a => simp [init_function_params] at h
      | pyNone => simp [init_function_params] at h
      | pyList a => simp [init_function_params] at h

theorem interp_dense : ∀ fuel : Nat,
    (∀ w rm oid fn node r rm', visit fuel w rm oid fn node = .ok (r, rm') →
      rpcDense rm → rpcDense rm') ∧
    (∀ w rm oid fn f args r rm',
      visit_Call fuel w rm oid fn f args = .ok (r, rm') →
      rpcDense rm → rpcDense rm') ∧
    (∀ w rm oid fn args r rm',
      visitArgs fuel w rm oid fn args = .ok (r, rm') →
      rpcDense rm → rpcDense rm') ∧
    (∀ w rm oid fn ns r rm',
      visitStmts fuel w rm oid fn ns = .ok (r, rm') →
      rpcDense rm → rpcDense rm') ∧
    (∀ w k kargs rm r rm', inline fuel w k kargs rm = .ok (r, rm') →
      rpcDense rm → rpcDense rm') := by
  intro fuel
  induction fuel with
  | zero =>
      refine ⟨?_, ?_, ?_, ?_, ?_⟩
      · intro w rm oid fn node r rm' h; simp [visit] at h
      · intro w rm oid fn f args r rm' h; simp [visit_Call] at h
      · intro w rm oid fn args r rm' h; simp [visitArgs] at h
      · intro w rm oid fn ns r rm' h; simp [visitStmts] at h
      · intro w k kargs rm r rm' h; simp [inline] at h
  | succ fl ih =>
      obtain ⟨ihv, ihc, iha, ihs, ihi⟩ := ih
      have hvisit : ∀ w rm oid fn node r rm',
          visit (fl + 1) w rm oid fn node = .ok (r, rm') →
          rpcDense rm → rpcDense rm' := by
        intro w rm oid fn node r rm' h hd
        cases node with
        | name nid c =>
            simp only [visit] at h
            cases hg : RM.get w rm oid fn (.name nid c) with
            | error e => rw [hg, exc_bind_err] at h; exact absurd h (by simp)
            | ok pr =>
                obtain ⟨x, rmx⟩ := pr
                rw [hg, exc_bind_ok] at h
                simp at h
                rw [← h.2]
                exact dense_of_frame (get_rpc_frame w rm oid fn _ x rmx hg) hd
        | «attribute» b a c =>
            simp only [visit] at h
            cases hg : RM.get w rm oid fn (.attribute b a c) with
            | error e => rw [hg, exc_bind_err] at h; exact absurd h (by simp)
            | ok pr =>
                obtain ⟨x, rmx⟩ := pr
                rw [hg, exc_bind_ok] at h
                simp at h
                rw [← h.2]
                exact dense_of_frame (get_rpc_frame w rm oid fn _ x rmx hg) hd
        | subscript b i c =>
            simp only [visit] at h
            cases hg : RM.get w rm oid fn (.subscript b i c) with
            | error e => rw [hg, exc_bind_err] at h; exact absurd h (by simp)
            | ok pr =>
                obtain ⟨x, rmx⟩ := pr
                rw [hg, exc_bind_ok] at h
                simp at h
                rw [← h.2]
                exact dense_of_frame (get_rpc_frame w rm oid fn _ x rmx hg) hd
        | call f args =>
            simp only [visit] at h
            exact ihc w rm oid fn f args r rm' h hd
        | exprStmt v =>
            cases v with
            | call cf cargs =>
                simp only [visit] at h
                cases hc : visit_Call fl w rm oid fn cf cargs with
                | error e => rw [hc, exc_bind_err] at h; exact absurd h (by simp)
                | ok pr =>
                    obtain ⟨tres, rmx⟩ := pr
                    rw [hc, exc_bind_ok] at h
                    have hdx := ihc w rm oid fn cf cargs tres rmx hc hd
                    cases tres with
                    | one rn => simp at h; rw [← h.2]; exact hdx
                    | many l => simp at h; rw [← h.2]; exact hdx
            | num n =>
                simp only [visit] at h
                cases hv : visit fl w rm oid fn (.num n) with
                | error e => rw [hv, exc_bind_err] at h; exact absurd h (by simp)
                | ok pr =>
                    obtain ⟨tres, rmx⟩ := pr
                    rw [hv, exc_bind_ok] at h
                    simp at h
                    rw [← h.2]
                    exact ihv w rm oid fn _ tres rmx hv hd
            | str s =>
                simp only [visit] at h
                cases hv : visit fl w rm oid fn (.str s) with
                | error e => rw [hv, exc_bind_err] at h; exact absurd h (by simp)
                | ok pr =>
                    obtain ⟨tres, rmx⟩ := pr
                    rw [hv, exc_bind_ok] at h
                    simp at h
                    rw [← h.2]
                    exact ihv w rm oid fn _ tres rmx hv hd
            | name a b =>
                simp only [visit] at h
                cases hv : visit fl w rm oid fn (.name a b) with
                | error e => rw [hv, exc_bind_err] at h; exact absurd h (by simp)
                | ok pr =>
                    obtain ⟨tres, rmx⟩ := pr
                    rw [hv, exc_bind_ok] at h
                    simp at h
                    rw [← h.2]
                    exact ihv w rm oid fn _ tres rmx hv hd
            | «attribute» a b c =>
                simp only [visit] at h
                cases hv : visit fl w rm oid fn (.attribute a b c) with
                | error e => rw [hv, exc_bind_err] at h; exact absurd h (by simp)
                | ok pr =>
                    obtain ⟨tres, rmx⟩ := pr
                    rw [hv, exc_bind_ok] at h
                    simp at h
                    rw [← h.2]
                    exact ihv w rm oid fn _ tres rmx hv hd
            | subscript a b c =>
                simp only [visit] at h
                cases hv : visit fl w rm oid fn (.subscript a b c) with
                | error e => rw [hv, exc_bind_err] at h; exact absurd h (by simp)
                | ok pr =>
                    obtain ⟨tres, rmx⟩ := pr
                    rw [hv, exc_bind_ok] at h
                    simp at h
                    rw [← h.2]
                    exact ihv w rm oid fn _ tres rmx hv hd
            | binOp a b c =>
                simp only [visit] at h
                cases hv : visit fl w rm oid fn (.binOp a b c) with
                | error e => rw [hv, exc_bind_err] at h; exact absurd h (by simp)
                | ok pr =>
                    obtain ⟨tres, rmx⟩ := pr
                    rw [hv, exc_bind_ok] at h
                    simp at h
                    rw [← h.2]
                    exact ihv w rm oid fn _ tres rmx hv hd
            | assign a b =>
                simp only [visit] at h
                cases hv : visit fl w rm oid fn (.assign a b) with
                | error e => rw [hv, exc_bind_err] at h; exact absurd h (by simp)
                | ok pr =>
                    obtain ⟨tres, rmx⟩ := pr
                    rw [hv, exc_bind_ok] at h
                    simp at h
                    rw [← h.2]
                    exact ihv w rm oid fn _ tres rmx hv hd
            | exprStmt a =>
                simp only [visit] at h
                cases hv : visit fl w rm oid fn (.exprStmt a) with
                | error e => rw [hv, exc_bind_err] at h; exact absurd h (by simp)
                | ok pr =>
                    obtain ⟨tres, rmx⟩ := pr
                    rw [hv, exc_bind_ok] at h
                    simp at h
                    rw [← h.2]
                    exact ihv w rm oid fn _ tres rmx hv hd
            | functionDef a b c =>
                simp only [visit] at h
                cases hv : visit fl w rm oid fn (.functionDef a b c) with
                | error e => rw [hv, exc_bind_err] at h; exact absurd h (by simp)
                | ok pr =>
                    obtain ⟨tres, rmx⟩ := pr
                    rw [hv, exc_bind_ok] at h
                    simp at h
                    rw [← h.2]
                    exact ihv w rm oid fn _ tres rmx hv hd
            | pyNone =>
                simp only [visit] at h
                cases hv : visit fl w rm oid fn .pyNone with
                | error e => rw [hv, exc_bind_err] at h; exact absurd h (by simp)
                | ok pr =>
                    obtain ⟨tres, rmx⟩ := pr
                    rw [hv, exc_bind_ok] at h
                    simp at h
                    rw [← h.2]
                    exact ihv w rm oid fn _ tres rmx hv hd
            | pyList a =>
                simp only [visit] at h
                cases hv : visit fl w rm oid fn (.pyList a) with
                | error e => rw [hv, exc_bind_err] at h; exact absurd h (by simp)
                | ok pr =>
                    obtain ⟨tres, rmx⟩ := pr
                    rw [hv, exc_bind_ok] at h
                    simp at h
                    rw [← h.2]
                    exact ihv w rm oid fn _ tres rmx hv hd
        | functionDef a ps body =>
            simp only [visit] at h
            cases hv : visitStmts fl w rm oid fn body with
            | error e => rw [hv, exc_bind_err] at h; exact absurd h (by simp)
            | ok pr =>
                obtain ⟨body2, rmx⟩ := pr
                rw [hv, exc_bind_ok] at h
                simp at h
                rw [← h.2]
                exact ihs w rm oid fn body body2 rmx hv hd
        | assign ts v =>
            simp only [visit] at h
            cases hts : visitStmts fl w rm oid fn ts with
            | error e => rw [hts, exc_bind_err] at h; exact absurd h (by simp)
            | ok pr =>
                obtain ⟨ts2, rmx⟩ := pr
                rw [hts, exc_bind_ok] at h
                cases hv : visit fl w rmx oid fn v with
                | error e => rw [hv, exc_bind_err] at h; exact absurd h (by simp)
                | ok pr2 =>
                    obtain ⟨tres, rmy⟩ := pr2
                    rw [hv, exc_bind_ok] at h
                    simp at h
                    rw [← h.2]
                    exact ihv w rmx oid fn v tres rmy hv
                      (ihs w rm oid fn ts ts2 rmx hts hd)
        | binOp le o ri =>
            simp only [visit] at h
            cases hl : visit fl w rm oid fn le with
            | error e => rw [hl, exc_bind_err] at h; exact absurd h (by simp)
            | ok pr =>
                obtain ⟨lr, rmx⟩ := pr
                rw [hl, exc_bind_ok] at h
                cases hr : visit fl w rmx oid fn ri with
                | error e => rw [hr, exc_bind_err] at h; exact absurd h (by simp)
                | ok pr2 =>
                    obtain ⟨rr, rmy⟩ := pr2
                    rw [hr, exc_bind_ok] at h
                    simp at h
                    rw [← h.2]
                    exact ihv w rmx oid fn ri rr rmy hr
                      (ihv w rm oid fn le lr rmx hl hd)
        | num n => simp [visit] at h; rw [← h.2]; exact hd
        | str s => simp [visit] at h; rw [← h.2]; exact hd
        | pyNone => simp [visit] at h; rw [← h.2]; exact hd
        | pyList xs =>
            simp only [visit] at h
            cases hv : visitStmts fl w rm oid fn xs with
            | error e => rw [hv, exc_bind_err] at h; exact absurd h (by simp)
            | ok pr =>
                obtain ⟨xs2, rmx⟩ := pr
                rw [hv, exc_bind_ok] at h
                simp at h
                rw [← h.2]
                exact ihs w rm oid fn xs xs2 rmx hv hd
      refine ⟨hvisit, ?_, ?_, ?_, ?_⟩
      · intro w rm oid fn f args r rm' h hd
        simp only [visit_Call] at h
        split at h
        · simp at h
        · rename_i func heq
          cases ha : visitArgs fl w rm oid fn args with
          | error e => rw [ha, exc_bind_err] at h; exact absurd h (by simp)
          | ok pr =>
              obtain ⟨ras, rmx⟩ := pr
              rw [ha, exc_bind_ok] at h
              have hdx := iha w rm oid fn args ras rmx ha hd
              cases func with
              | embed op => simp at h; rw [← h.2]; exact hdx
              | kfunc info selfId =>
                  simp only [] at h
                  cases hi : inline fl w info
                      (.obj selfId :: ras.map TRes.toVal) rmx with
                  | error e => rw [hi, exc_bind_err] at h; exact absurd h (by simp)
                  | ok pr2 =>
                      obtain ⟨stmts, rmy⟩ := pr2
                      rw [hi, exc_bind_ok] at h
                      simp at h
                      rw [← h.2]
                      exact ihi w info _ rmx stmts rmy hi hdx
              | int n => simp at h; rw [← h.2]; exact rpcId_dense rmx _ hdx
              | str s => simp at h; rw [← h.2]; exact rpcId_dense rmx _ hdx
              | global g => simp at h; rw [← h.2]; exact rpcId_dense rmx _ hdx
              | quantity a u => simp at h; rw [← h.2]; exact rpcId_dense rmx _ hdx
              | obj o => simp at h; rw [← h.2]; exact rpcId_dense rmx _ hdx
              | astNode a => simp at h; rw [← h.2]; exact rpcId_dense rmx _ hdx
              | astList a => simp at h; rw [← h.2]; exact rpcId_dense rmx _ hdx
      · intro w rm oid fn args r rm' h hd
        cases args with
        | nil => simp [visitArgs] at h; rw [← h.2]; exact hd
        | cons a rest =>
            simp only [visitArgs] at h
            cases hv : visit fl w rm oid fn a with
            | error e => rw [hv, exc_bind_err] at h; exact absurd h (by simp)
            | ok pr =>
                obtain ⟨tres, rmx⟩ := pr
                rw [hv, exc_bind_ok] at h
                cases hrest : visitArgs fl w rmx oid fn rest with
                | error e => rw [hrest, exc_bind_err] at h; exact absurd h (by simp)
                | ok pr2 =>
                    obtain ⟨rs, rmy⟩ := pr2
                    rw [hrest, exc_bind_ok] at h
                    simp at h
                    rw [← h.2]
                    exact iha w rmx oid fn rest rs rmy hrest
                      (ihv w rm oid fn a tres rmx hv hd)
      · intro w rm oid fn ns r rm' h hd
        cases ns with
        | nil => simp [visitStmts] at h; rw [← h.2]; exact hd
        | cons a rest =>
            simp only [visitStmts] at h
            cases hv : visit fl w rm oid fn a with
            | error e => rw [hv, exc_bind_err] at h; exact absurd h (by simp)
            | ok pr =>
                obtain ⟨tres, rmx⟩ := pr
                rw [hv, exc_bind_ok] at h
                cases hrest : visitStmts fl w rmx oid fn rest with
                | error e => rw [hrest, exc_bind_err] at h; exact absurd h (by simp)
                | ok pr2 =>
                    obtain ⟨rs, rmy⟩ := pr2
                    rw [hrest, exc_bind_ok] at h
                    have hdy := ihs w rmx oid fn rest rs rmy hrest
                      (ihv w rm oid fn a tres rmx hv hd)
                    cases tres with
                    | one n2 => simp at h; rw [← h.2]; exact hdy
                    | many l => simp at h; rw [← h.2]; exact hdy
      · intro w k kargs rm r rm' h hd
        cases kargs with
        | nil => simp [inline] at h
        | cons obj rest =>
            simp only [inline] at h
            cases hip : init_function_params w
                (.functionDef k.kname k.params k.body) (obj :: rest) rm with
            | error e => rw [hip, exc_bind_err] at h; exact absurd h (by simp)
            | ok pr =>
                obtain ⟨pi, rmx⟩ := pr
                rw [hip, exc_bind_ok] at h
                cases hv : visit fl w rmx (pyId obj) k.kname
                    (.functionDef k.kname k.params k.body) with
                | error e => rw [hv, exc_bind_err] at h; exact absurd h (by simp)
                | ok pr2 =>
                    obtain ⟨tres, rmy⟩ := pr2
                    rw [hv, exc_bind_ok] at h
                    have hdy := ihv w rmx (pyId obj) k.kname _ tres rmy hv
                      (dense_of_frame
                        (init_params_rpc_frame w _ _ rm pi rmx hip) hd)
                    cases tres with
                    | many l => simp at h
                    | one n2 =>
                        cases n2 with
                        | functionDef a b c => simp at h; rw [← h.2]; exact hdy
                        | num n3 => simp at h
                        | str s3 => simp at h
                        | name a b => simp at h
                        | «attribute» a b c => simp at h
                        | subscript a b c => simp at h
                        | call a b => simp at h
                        | binOp a b c => simp at h
                        | assign a b => simp at h
                        | exprStmt a => simp at h
                        | pyNone => simp at h
                        | pyList a => simp at h

/-- C1 (amended): a call whose statically evaluated target is a kernel
function is recursively inlined with the target's bound owner prepended to
the resolved arguments; for a standalone expression-statement call the
returned flattened statements are spliced in place of the statement, so no
call node remains at the call site; the nested inlining threads the
caller's single remote-call registry, whose ids stay dense (hence free of
collisions); and for a value-producing call the flattened statement list
itself is stored in the expression slot (no expression value is produced —
the stored host list is not an expression node). -/
theorem C1_nested_inline (fuel : Nat) (w : World) (rm rm₁ rm₂ : RM)
    (oid : Nat) (fname : String) (f : Node) (args : List Node)
    (info : KFunc) (selfId : Nat) (ras : List TRes) (stmts : List Node)
    (hf : eval_ast w f (callEnv w rm oid fname) = some (.kfunc info selfId))
    (hargs : visitArgs fuel w rm oid fname args = .ok (ras, rm₁))
    (hinl : inline fuel w info (.obj selfId :: ras.map TRes.toVal) rm₁ =
      .ok (stmts, rm₂)) :
    visit_Call (fuel + 1) w rm oid fname f args = .ok (.many stmts, rm₂) ∧
    visit (fuel + 2) w rm oid fname (.exprStmt (.call f args)) =
      .ok (.many stmts, rm₂) ∧
    (rpcDense rm →
      rpcDense rm₂ ∧ (rm₂.rpc_map.map Prod.snd).Nodup) ∧
    (∀ (g : Nat) (ts ts' stmts2 : List Node) (rmA rmB : RM),
      visitStmts (g + 1) w rm oid fname ts = .ok (ts', rmA) →
      visit_Call g w rmA oid fname f args = .ok (.many stmts2, rmB) →
      (visit (g + 2) w rm oid fname (.assign ts (.call f args)) =
        .ok (.one (.assign ts' (.pyList stmts2)), rmB) ∧
        Node.isExpr (.pyList stmts2) = false)) := by
  have hcall : visit_Call (fuel + 1) w rm oid fname f args =
      .ok (.many stmts, rm₂) := by
    simp only [visit_Call]
    rw [hf]
    simp only []
    rw [hargs, exc_bind_ok]
    simp only []
    rw [hinl, exc_bind_ok]
  refine ⟨hcall, ?_, ?_, ?_⟩
  · simp only [visit]
    rw [hcall, exc_bind_ok]
  · intro hd
    have hd₁ := (interp_dense fuel).2.2.1 w rm oid fname args ras rm₁
      hargs hd
    have hd₂ := (interp_dense fuel).2.2.2.2 w info _ rm₁ stmts rm₂
      hinl hd₁
    refine ⟨hd₂, ?_⟩
    unfold rpcDense at hd₂
    rw [hd₂]
    exact List.nodup_range _
  · intro g ts ts' stmts2 rmA rmB hts hcall2
    constructor
    · simp only [visit]
      rw [hts, exc_bind_ok]
      simp only [visit]
      rw [hcall2, exc_bind_ok]
      rfl
    · rfl

/-- Witness for C1: in the fixture world, `g()` with target the kernel
function `g` bound to owner 1 inlines to the flattened body of `g` (one
remote host call), splicing it as a statement and, in value-producing
position, storing the statement list in the assignment's value slot. -/
theorem C1_nested_inline_witness :
    visit_Call 9 wNest RM.init 1 "f" (.name "g" .load) [] =
      .ok (.many [Node.exprStmt (.call (.name "syscall" .load)
        [.str "rpc", .num 0])],
        ⟨[((1, "g", "self"), .objv (.obj 1))], RM.init.use_count,
          [(.obj 99, 0)]⟩) ∧
    visit 10 wNest RM.init 1 "f" (.exprStmt (.call (.name "g" .load) [])) =
      .ok (.many [Node.exprStmt (.call (.name "syscall" .load)
        [.str "rpc", .num 0])],
        ⟨[((1, "g", "self"), .objv (.obj 1))], RM.init.use_count,
          [(.obj 99, 0)]⟩) := by
  have h := C1_nested_inline 8 wNest RM.init RM.init
    ⟨[((1, "g", "self"), .objv (.obj 1))], RM.init.use_count,
      [(.obj 99, 0)]⟩
    1 "f" (.name "g" .load) [] kg0 1 []
    [Node.exprStmt (.call (.name "syscall" .load) [.str "rpc", .num 0])]
    rfl
    (by simp [visitArgs])
    (by simp [beq_eval, inline, init_function_params, list_read_only_params,
      scanROP, scanROPList, initLoop, RM.get, RM.set, Node.refCtx,
      RM.new_name, normBase, lastIsDigit, RM.init, visit, visitStmts,
      visit_Call, visitArgs, value_to_ast, exc_bind_ok, List.lookup,
      RM.getFallback, replace_global, eval_ast, moduleOf, wNest, kg0,
      kernel_globals, pyId, callEnv, RM.get_constants, RM.rpcId, rpcLookup,
      TRes.toNode, TRes.toVal, EmbedOp.pyName])
  exact ⟨h.1, h.2.1⟩

/-- Counterexample to C1 as stated: for the value-producing call
`r = g()` the inliner does not put "the returned expression value" in
place of the call — `inline` returns no expression value at all; the
flattened statement list is stored in the assignment's value slot, and
that stored host list is not an expression node. -/
theorem C1_counterexample :
    (inline 20 wNest kVP [.obj 1] RM.init).map Prod.fst =
      .ok [Node.assign [.name "r" .store]
        (.pyList [Node.exprStmt (.call (.name "syscall" .load)
          [.str "rpc", .num 0])])] ∧
    Node.isExpr (.pyList [Node.exprStmt (.call (.name "syscall" .load)
      [.str "rpc", .num 0])]) = false := by
  constructor
  · simp [beq_eval, inline, init_function_params, list_read_only_params,
      scanROP, scanROPList, initLoop, RM.get, RM.set, Node.refCtx,
      RM.new_name, normBase, lastIsDigit, RM.init, visit, visitStmts,
      visit_Call, visitArgs, value_to_ast, exc_bind_ok, List.lookup,
      RM.getFallback, replace_global, eval_ast, moduleOf, wNest, kg0, kVP,
      kernel_globals, pyId, callEnv, RM.get_constants, RM.rpcId, rpcLookup,
      TRes.toNode, TRes.toVal, Except.map]
  · rfl

/-- C2 (amended): a formal parameter reassigned in the body produces
exactly one initialization statement — an assignment of the encoded
argument value, with the host `None` placeholder (and no failure) when the
value is not encodable — to its renamed store target, and `inline` places
the initialization statements before every other statement of the output;
the emitted statements correspond one-to-one, in order, to the parameters
that are reassigned in the body. -/
theorem C2_mutable_param_init (fuel : Nat) (w : World) (rm rm₁ rm₂ : RM)
    (obj : Value) (vrest : List Value) (fn : String) (ps : List String)
    (body : List Node) (rop : List String) (pi nb : List Node)
    (hlrop : list_read_only_params (.functionDef fn ps body) = .ok rop)
    (hinit : init_function_params w (.functionDef fn ps body)
      (obj :: vrest) rm = .ok (pi, rm₁))
    (hstmts : visitStmts fuel w rm₁ (pyId obj) fn body = .ok (nb, rm₂)) :
    inline (fuel + 2) w ⟨fn, ps, body⟩ (obj :: vrest) rm =
      .ok (pi ++ nb, rm₂) ∧
    List.Forall₂ (fun (q : String × Value) (st : Node) =>
        ∃ t, st = Node.assign [.name t .store]
          ((value_to_ast q.2).getD .pyNone))
      ((ps.zip (obj :: vrest)).filter fun q =>
        decide (q.1 ∈ storeNamesList body)) pi := by
  have hloop : initLoop w (pyId obj) fn rop (ps.zip (obj :: vrest)) rm =
      .ok (pi, rm₁) := by
    simp only [init_function_params, hlrop, exc_bind_ok] at hinit
    exact hinit
  constructor
  · simp only [inline]
    rw [hinit, exc_bind_ok]
    simp only [visit]
    rw [hstmts, exc_bind_ok, exc_bind_ok]
  · have hcong : ((ps.zip (obj :: vrest)).filter fun q =>
        decide (q.1 ∉ rop)) =
        ((ps.zip (obj :: vrest)).filter fun q =>
          decide (q.1 ∈ storeNamesList body)) := by
      apply List.filter_congr
      intro q hq
      obtain ⟨x, y⟩ := q
      have hq1 : x ∈ ps := (List.of_mem_zip hq).1
      rw [lrop_eq fn ps body rop hlrop]
      simp [List.mem_filter, hq1]
    rw [← hcong]
    exact initLoop_shape w (pyId obj) fn rop _ rm pi rm₁ hloop

/-- Witness for C2: `f(self, y)` with `y = y + 1`, called with `y = 2`:
the output starts with the single initialization `y = 2` followed by the
rewritten body. -/
theorem C2_mutable_param_init_witness :
    inline 7 wFixture kMut [.obj 1, .int 2] RM.init =
      .ok ([Node.assign [.name "y" .store] (.num 2),
        Node.assign [.name "y" .store]
          (.binOp (.name "y" .load) "+" (.num 1))],
        ⟨[((1, "f", "y"), .var "y"), ((1, "f", "self"), .objv (.obj 1))],
          ("y", 1) :: RM.init.use_count, []⟩) ∧
    List.Forall₂ (fun (q : String × Value) (st : Node) =>
        ∃ t, st = Node.assign [.name t .store]
          ((value_to_ast q.2).getD .pyNone))
      ((["self", "y"].zip [Value.obj 1, Value.int 2]).filter fun q =>
        decide (q.1 ∈ storeNamesList kMut.body))
      [Node.assign [.name "y" .store] (.num 2)] := by
  have h := C2_mutable_param_init 5 wFixture RM.init
    ⟨[((1, "f", "y"), .var "y"), ((1, "f", "self"), .objv (.obj 1))],
      ("y", 1) :: RM.init.use_count, []⟩
    ⟨[((1, "f", "y"), .var "y"), ((1, "f", "self"), .objv (.obj 1))],
      ("y", 1) :: RM.init.use_count, []⟩
    (.obj 1) [.int 2] "f" ["self", "y"] kMut.body ["self"]
    [Node.assign [.name "y" .store] (.num 2)]
    [Node.assign [.name "y" .store] (.binOp (.name "y" .load) "+" (.num 1))]
    (by simp [list_read_only_params, scanROP, scanROPList, kMut,
      exc_bind_ok])
    (by simp [beq_eval, init_function_params, list_read_only_params,
      scanROP, scanROPList, initLoop, RM.get, RM.set, Node.refCtx,
      RM.new_name, normBase, lastIsDigit, RM.init, kMut, value_to_ast, exc_bind_ok,
      List.lookup, kernel_globals, pyId])
    (by simp [beq_eval, visitStmts, visit, RM.get, Node.refCtx, RM.init,
      kMut, value_to_ast, exc_bind_ok, List.lookup, pyId, TRes.toNode])
  exact ⟨h.1, h.2⟩

/-- Counterexample to C2 as stated: the argument for the reassigned
parameter `y` is a plain host object, which cannot be encoded as a literal
— yet inlining does not fail with the unrepresentable-value error; it
succeeds and emits an initialization statement whose value slot holds the
host `None`. -/
theorem C2_counterexample :
    (inline 10 wFixture kMut [.obj 1, .obj 5] RM.init).map Prod.fst =
      .ok [Node.assign [.name "y" .store] .pyNone,
        Node.assign [.name "y" .store]
          (.binOp (.name "y" .load) "+" (.num 1))] := by
  simp [beq_eval, inline, init_function_params, list_read_only_params,
    scanROP, scanROPList, initLoop, RM.get, RM.set, Node.refCtx,
    RM.new_name, normBase, lastIsDigit, RM.init, visit, visitStmts, value_to_ast,
    exc_bind_ok, Except.map, List.lookup, RM.getFallback, replace_global,
    eval_ast, moduleOf, wFixture, kMut, kernel_globals, pyId,
    TRes.toNode]

/-- C3: a formal parameter whose name never occurs as a store target in the
body is read-only: it is bound as a folded constant holding the argument
value, resolving a load reference to it yields the literal-encoded argument
value with the manager unchanged, and the initialization statements
correspond only to the non-read-only parameters (none is emitted for this
one). -/
theorem C3_readonly_param_elision (w : World) (rm rm₁ : RM) (obj v : Value)
    (vrest : List Value) (fn p : String) (ps : List String)
    (body : List Node) (rop : List String) (a : Node) (pi : List Node)
    (hlen : ps.length ≤ vrest.length + 1)
    (hnd : ps.Nodup)
    (hlrop : list_read_only_params (.functionDef fn ps body) = .ok rop)
    (hstore : p ∉ storeNamesList body)
    (hpair : (p, v) ∈ ps.zip (obj :: vrest))
    (henc : value_to_ast v = some a)
    (hinit : init_function_params w (.functionDef fn ps body)
      (obj :: vrest) rm = .ok (pi, rm₁)) :
    p ∈ rop ∧
    rm₁.to_inlined.lookup (pyId obj, fn, p) = some (.objv v) ∧
    RM.get w rm₁ (pyId obj) fn (.name p .load) = .ok (a, rm₁) ∧
    List.Forall₂ (fun (q : String × Value) (st : Node) =>
        ∃ t, st = Node.assign [.name t .store]
          ((value_to_ast q.2).getD .pyNone))
      ((ps.zip (obj :: vrest)).filter fun q => decide (q.1 ∉ rop)) pi := by
  have hp : p ∈ ps := (List.of_mem_zip hpair).1
  have hrop : p ∈ rop := by
    rw [lrop_eq fn ps body rop hlrop]
    simp [List.mem_filter, hp, hstore]
  have hloop : initLoop w (pyId obj) fn rop (ps.zip (obj :: vrest)) rm =
      .ok (pi, rm₁) := by
    simp only [init_function_params, hlrop, exc_bind_ok] at hinit
    exact hinit
  have hmap : (ps.zip (obj :: vrest)).map Prod.fst = ps :=
    List.map_fst_zip ps (obj :: vrest) (by simpa using hlen)
  obtain ⟨pre, post, hsplit⟩ := List.append_of_mem hpair
  have hnd' : (pre.map Prod.fst ++ p :: post.map Prod.fst).Nodup := by
    have := hnd
    rw [← hmap, hsplit, List.map_append, List.map_cons] at this
    exact this
  have hppre : p ∉ pre.map Prod.fst := by
    intro hmem
    have := (List.nodup_append.mp hnd').2.2
    exact absurd (List.mem_cons_self p _) (this hmem)
  have hppost : p ∉ post.map Prod.fst := by
    have := (List.nodup_append.mp hnd').2.1
    exact (List.nodup_cons.mp this).1
  have hfound : rm₁.to_inlined.lookup (pyId obj, fn, p) =
      some (.objv v) := by
    rw [hsplit] at hloop
    exact initLoop_found w (pyId obj) fn rop p v pre post rm pi rm₁
      hloop hrop hppre hppost
  exact ⟨hrop, hfound,
    get_load_const w rm₁ (pyId obj) fn p v a hfound henc,
    initLoop_shape w (pyId obj) fn rop _ rm pi rm₁ hloop⟩

/-- Witness for C3: `g(self, t)` never reassigns `t`; called with `t = 5`
both parameters fold to constants, the load reference to `t` resolves to
the literal `5`, and no initialization statement is emitted. -/
theorem C3_readonly_param_elision_witness :
    "t" ∈ ["self", "t"] ∧
    (RM.set (RM.set RM.init 1 "g" "self" (.obj 1)) 1 "g" "t"
        (.int 5)).to_inlined.lookup ((1 : Nat), "g", "t") =
      some (.objv (.int 5)) ∧
    RM.get wFixture
      (RM.set (RM.set RM.init 1 "g" "self" (.obj 1)) 1 "g" "t" (.int 5))
      1 "g" (.name "t" .load) =
      .ok (.num 5,
        RM.set (RM.set RM.init 1 "g" "self" (.obj 1)) 1 "g" "t" (.int 5)) ∧
    List.Forall₂ (fun (q : String × Value) (st : Node) =>
        ∃ t, st = Node.assign [.name t .store]
          ((value_to_ast q.2).getD .pyNone))
      ((["self", "t"].zip [Value.obj 1, Value.int 5]).filter fun q =>
        decide (q.1 ∉ ["self", "t"])) [] := by
  have h := C3_readonly_param_elision wFixture RM.init
    (RM.set (RM.set RM.init 1 "g" "self" (.obj 1)) 1 "g" "t" (.int 5))
    (.obj 1) (.int 5) [.int 5] "g" "t" ["self", "t"] gFixture.body
    ["self", "t"] (.num 5) []
    (by simp) (by simp)
    (by simp [list_read_only_params, scanROP, scanROPList, gFixture,
      storeNames, exc_bind_ok])
    (by simp [gFixture, storeNamesList, storeNames])
    (by simp)
    rfl
    (by simp [beq_eval, init_function_params, list_read_only_params,
      scanROP, scanROPList, initLoop, RM.set, gFixture, exc_bind_ok,
      pyId, storeNames, storeNamesList])
  exact h

/-! ### Name allocator lemmas -/

theorem str_data_append (s t : String) : (s ++ t).data = s.data ++ t.data :=
  rfl

theorem digitCh_isDigit (d : Nat) (h : d < 10) : (digitCh d).isDigit = true := by
  interval_cases d <;> decide

theorem digitCh_toNat (d : Nat) (h : d < 10) : (digitCh d).toNat = 48 + d := by
  interval_cases d <;> decide

theorem natStrAux_digits : ∀ (fuel n : Nat), ∀ c ∈ natStrAux fuel n,
    c.isDigit = true := by
  intro fuel
  induction fuel with
  | zero => intro n c hc; simp [natStrAux] at hc
  | succ f ih =>
      intro n c hc
      simp only [natStrAux] at hc
      by_cases h : n = 0
      · simp [h] at hc
      · rw [if_neg h] at hc
        rcases List.mem_append.mp hc with h1 | h2
        · exact ih _ _ h1
        · have hcd : c = digitCh (n % 10) := by simpa using h2
          rw [hcd]
          exact digitCh_isDigit _ (Nat.mod_lt _ (by norm_num))

theorem valOfDigits_append (l : List Char) (c : Char) :
    valOfDigits (l ++ [c]) = 10 * valOfDigits l + (c.toNat - 48) := by
  simp [valOfDigits, List.foldl_append]

theorem valOf_natStrAux : ∀ (fuel n : Nat), n < fuel →
    valOfDigits (natStrAux fuel n) = n := by
  intro fuel
  induction fuel with
  | zero => intro n h; omega
  | succ f ih =>
      intro n h
      by_cases h0 : n = 0
      · simp [natStrAux, h0, valOfDigits]
      · simp only [natStrAux]
        rw [if_neg h0, valOfDigits_append]
        have hlt : n / 10 < f := by
          have h1 : n / 10 < n :=
            Nat.div_lt_self (Nat.pos_of_ne_zero h0) (by norm_num)
          omega
        rw [ih _ hlt, digitCh_toNat _ (Nat.mod_lt _ (by norm_num))]
        have := Nat.div_add_mod n 10
        omega

theorem strVal_natStr (n : Nat) : valOfDigits (natStr n).data = n := by
  by_cases h : n = 0
  · subst h; decide
  · simp only [natStr, if_neg h]
    exact valOf_natStrAux (n + 1) n (by omega)

theorem natStr_inj {m n : Nat} (h : natStr m = natStr n) : m = n := by
  have h2 := congrArg (fun s : String => valOfDigits s.data) h
  simpa [strVal_natStr] using h2

theorem natStr_digits (n : Nat) : ∀ c ∈ (natStr n).data, c.isDigit = true := by
  by_cases h : n = 0
  · subst h; decide
  · simp only [natStr, if_neg h]
    intro c hc
    exact natStrAux_digits _ _ c hc

theorem natStr_ne_nil (n : Nat) : (natStr n).data ≠ [] := by
  by_cases h : n = 0
  · subst h; decide
  · simp only [natStr, if_neg h]
    show natStrAux (n + 1) n ≠ []
    simp only [natStrAux]
    rw [if_neg h]
    simp

theorem lastIsDigit_append_natStr (b : String) (k : Nat) :
    lastIsDigit (b ++ natStr k) = true := by
  unfold lastIsDigit
  rw [str_data_append, List.getLast?_append_of_ne_nil _ (natStr_ne_nil k)]
  cases hl : (natStr k).data.getLast? with
  | none =>
      exfalso
      apply natStr_ne_nil k
      cases hdat : (natStr k).data with
      | nil => rfl
      | cons a t => rw [hdat] at hl; simp [List.getLast?_eq_getLast] at hl
  | some c =>
      exact natStr_digits k c (List.mem_of_mem_getLast? hl)

theorem lastIsDigit_underscore (b : String) :
    lastIsDigit (b ++ "_") = false := by
  unfold lastIsDigit
  rw [str_data_append]
  have h1 : ("_" : String).data = ['_'] := rfl
  rw [h1, List.getLast?_concat]
  decide

theorem append_ne_empty (b t : String) (h : t.data ≠ []) : b ++ t ≠ "" := by
  intro he
  have h2 := congrArg String.data he
  rw [str_data_append] at h2
  simp at h2
  exact h h2.2

theorem normBase_ne_empty (b : String) (hb : b ≠ "") : normBase b ≠ "" := by
  unfold normBase
  cases h : lastIsDigit b with
  | true =>
      simp only [if_pos]
      exact append_ne_empty b "_" (by decide)
  | false => simpa using hb

theorem normBase_not_digit (b : String) : lastIsDigit (normBase b) = false := by
  unfold normBase
  cases h : lastIsDigit b with
  | true => simp [lastIsDigit_underscore]
  | false => simpa using h

theorem digit_split_rev : ∀ (u v xr yr : List Char),
    (∀ c ∈ u, c.isDigit = true) → (∀ c ∈ v, c.isDigit = true) →
    (∀ c, xr.head? = some c → c.isDigit = false) →
    (∀ c, yr.head? = some c → c.isDigit = false) →
    u ++ xr = v ++ yr → u = v ∧ xr = yr := by
  intro u
  induction u with
  | nil =>
      intro v xr yr _ hv hx hy h
      cases v with
      | nil => simpa using h
      | cons a t =>
          exfalso
          rw [List.nil_append] at h
          have hh : xr.head? = some a := by rw [h]; rfl
          have hd := hx a hh
          have hd2 := hv a (by simp)
          rw [hd2] at hd
          exact absurd hd (by simp)
  | cons a t ih =>
      intro v xr yr hu hv hx hy h
      cases v with
      | nil =>
          exfalso
          rw [List.nil_append] at h
          have hh : yr.head? = some a := by rw [← h]; rfl
          have hd := hy a hh
          have hd2 := hu a (by simp)
          rw [hd2] at hd
          exact absurd hd (by simp)
      | cons b s =>
          simp only [List.cons_append, List.cons.injEq] at h
          obtain ⟨hab, ht⟩ := h
          obtain ⟨h1, h2⟩ := ih s xr yr
            (fun c hc => hu c (by simp [hc]))
            (fun c hc => hv c (by simp [hc])) hx hy ht
          exact ⟨by rw [hab, h1], h2⟩

theorem base_suffix_unique (b₁ b₂ : String) (k₁ k₂ : Nat)
    (_ : b₁ ≠ "") (_ : b₂ ≠ "")
    (hd₁ : lastIsDigit b₁ = false) (hd₂ : lastIsDigit b₂ = false)
    (h : b₁ ++ natStr k₁ = b₂ ++ natStr k₂) : b₁ = b₂ ∧ k₁ = k₂ := by
  have hdata : b₁.data ++ (natStr k₁).data = b₂.data ++ (natStr k₂).data := by
    have h3 := congrArg String.data h
    simpa [str_data_append] using h3
  have hrev : (natStr k₁).data.reverse ++ b₁.data.reverse =
      (natStr k₂).data.reverse ++ b₂.data.reverse := by
    have h3 := congrArg List.reverse hdata
    simpa [List.reverse_append] using h3
  have hx : ∀ c, b₁.data.reverse.head? = some c → c.isDigit = false := by
    intro c hcc
    rw [List.head?_reverse] at hcc
    unfold lastIsDigit at hd₁
    rw [hcc] at hd₁
    exact hd₁
  have hy : ∀ c, b₂.data.reverse.head? = some c → c.isDigit = false := by
    intro c hcc
    rw [List.head?_reverse] at hcc
    unfold lastIsDigit at hd₂
    rw [hcc] at hd₂
    exact hd₂
  have hu : ∀ c ∈ (natStr k₁).data.reverse, c.isDigit = true := fun c hc =>
    natStr_digits k₁ c (List.mem_reverse.mp hc)
  have hv : ∀ c ∈ (natStr k₂).data.reverse, c.isDigit = true := fun c hc =>
    natStr_digits k₂ c (List.mem_reverse.mp hc)
  obtain ⟨he1, he2⟩ :=
    digit_split_rev _ _ _ _ hu hv hx hy hrev
  constructor
  · apply String.ext
    have h3 := congrArg List.reverse he2
    simpa using h3
  · apply natStr_inj
    apply String.ext
    have h3 := congrArg List.reverse he1
    simpa using h3

theorem lookup_some_mem {β : Type} :
    ∀ (l : List (String × β)) (k : String) (v : β),
      List.lookup k l = some v → (k, v) ∈ l := by
  intro l
  induction l with
  | nil => intro k v h; simp [List.lookup] at h
  | cons p t ih =>
      obtain ⟨a, b⟩ := p
      intro k v h
      simp only [List.lookup] at h
      cases hb : (k == a) with
      | true =>
          rw [hb] at h
          simp at h
          have hk : k = a := eq_of_beq hb
          subst hk
          rw [← h]
          exact List.mem_cons_self _ _
      | false =>
          rw [hb] at h
          exact List.mem_cons_of_mem _ (ih k v h)

theorem ucBump_cons (a : String) (c : Nat) (t : List (String × Nat))
    (k : String) :
    ucBump ((a, c) :: t) k =
      (if a = k then (a, c + 1) else (a, c)) :: ucBump t k := by
  simp [ucBump]

theorem lookup_ucBump_self : ∀ (l : List (String × Nat)) (k : String),
    List.lookup k (ucBump l k) = (List.lookup k l).map (· + 1) := by
  intro l k
  induction l with
  | nil => simp [ucBump, List.lookup]
  | cons p t ih =>
      obtain ⟨a, c⟩ := p
      rw [ucBump_cons]
      by_cases ha : a = k
      · rw [if_pos ha]
        subst ha
        simp [List.lookup, beq_eval]
      · rw [if_neg ha]
        simp [List.lookup, beq_eval, Ne.symm ha, ih]

theorem lookup_ucBump_other : ∀ (l : List (String × Nat)) (k q : String),
    q ≠ k → List.lookup q (ucBump l k) = List.lookup q l := by
  intro l k q hq
  induction l with
  | nil => simp [ucBump, List.lookup]
  | cons p t ih =>
      obtain ⟨a, c⟩ := p
      rw [ucBump_cons]
      by_cases ha : a = k
      · rw [if_pos ha]
        subst ha
        simp [List.lookup, beq_eval, hq, ih]
      · rw [if_neg ha]
        by_cases hqa : q = a
        · subst hqa
          simp [List.lookup, beq_eval]
        · simp [List.lookup, beq_eval, hqa, ih]

theorem new_name_none (rm : RM) (b : String)
    (h : rm.use_count.lookup (normBase b) = none) :
    rm.new_name b =
      (normBase b, { rm with use_count := (normBase b, 1) :: rm.use_count }) := by
  simp [RM.new_name, h]

theorem new_name_some (rm : RM) (b : String) (c : Nat)
    (h : rm.use_count.lookup (normBase b) = some c) :
    rm.new_name b = (normBase b ++ natStr c,
      { rm with use_count := ucBump rm.use_count (normBase b) }) := by
  simp [RM.new_name, h]

theorem ucWF_init : ucWF RM.init := by
  unfold ucWF RM.init
  decide

theorem reserved_covered (r : String) (hr : r ∈ reservedNames) :
    covered RM.init r := by
  refine ⟨r, 1, ?_, Or.inl rfl⟩
  simp only [reservedNames, kernel_globals] at hr
  simp at hr
  rcases hr with h | h | h | h | h | h <;> subst h <;> decide

theorem new_name_step (rm : RM) (base : String) (hb : base ≠ "")
    (hwf : ucWF rm) :
    ucWF (rm.new_name base).2 ∧
    ¬ covered rm (rm.new_name base).1 ∧
    covered (rm.new_name base).2 (rm.new_name base).1 ∧
    (∀ m, covered rm m → covered (rm.new_name base).2 m) := by
  have hnbne := normBase_ne_empty base hb
  have hnbd := normBase_not_digit base
  cases hc : rm.use_count.lookup (normBase base) with
  | none =>
      have he := new_name_none rm base hc
      have he1 : (rm.new_name base).1 = normBase base := by rw [he]
      have he2 : (rm.new_name base).2 =
          { rm with use_count := (normBase base, 1) :: rm.use_count } := by
        rw [he]
      rw [he1, he2]
      refine ⟨?_, ?_, ?_, ?_⟩
      · intro p hp
        rcases List.mem_cons.mp hp with h1 | h1
        · rw [h1]; exact ⟨hnbne, hnbd, le_refl 1⟩
        · exact hwf p h1
      · rintro ⟨b', c', hlk, hor⟩
        rcases hor with h1 | ⟨k, hk1, hkc, h2⟩
        · rw [← h1] at hlk
          rw [hc] at hlk
          exact absurd hlk (by simp)
        · rw [h2] at hnbd
          rw [lastIsDigit_append_natStr] at hnbd
          exact absurd hnbd (by simp)
      · exact ⟨normBase base, 1, by simp [List.lookup, beq_eval], Or.inl rfl⟩
      · rintro m ⟨b', c', hlk, hor⟩
        have hbne : b' ≠ normBase base := by
          intro heq
          rw [heq, hc] at hlk
          exact absurd hlk (by simp)
        refine ⟨b', c', ?_, hor⟩
        show List.lookup b' ((normBase base, 1) :: rm.use_count) = some c'
        simp [List.lookup, beq_eval, hbne, hlk]
  | some c =>
      have hmemc := lookup_some_mem _ _ _ hc
      have hc1 : 1 ≤ c := (hwf _ hmemc).2.2
      have he := new_name_some rm base c hc
      have he1 : (rm.new_name base).1 = normBase base ++ natStr c := by rw [he]
      have he2 : (rm.new_name base).2 =
          { rm with use_count := ucBump rm.use_count (normBase base) } := by
        rw [he]
      rw [he1, he2]
      refine ⟨?_, ?_, ?_, ?_⟩
      · intro p hp
        simp only [ucBump, List.mem_map] at hp
        obtain ⟨q, hq, hfq⟩ := hp
        by_cases hqb : q.1 = normBase base
        · rw [if_pos hqb] at hfq
          rw [← hfq]
          refine ⟨(hwf q hq).1, (hwf q hq).2.1, ?_⟩
          have := (hwf q hq).2.2
          omega
        · rw [if_neg hqb] at hfq
          rw [← hfq]
          exact hwf q hq
      · rintro ⟨b', c', hlk, hor⟩
        have hmem2 := lookup_some_mem _ _ _ hlk
        have hprops := hwf _ hmem2
        rcases hor with h1 | ⟨k, hk1, hkc, h2⟩
        · have hlia := lastIsDigit_append_natStr (normBase base) c
          rw [h1] at hlia
          rw [hprops.2.1] at hlia
          exact absurd hlia (by simp)
        · obtain ⟨hbeq, hkeq⟩ := base_suffix_unique (normBase base) b' c k
            hnbne hprops.1 hnbd hprops.2.1 h2
          rw [← hbeq] at hlk
          rw [hc] at hlk
          have hcc : c = c' := by simpa using hlk
          omega
      · refine ⟨normBase base, c + 1, ?_, Or.inr ⟨c, hc1, by omega, rfl⟩⟩
        show List.lookup (normBase base)
          (ucBump rm.use_count (normBase base)) = some (c + 1)
        rw [lookup_ucBump_self, hc]
        rfl
      · rintro m ⟨b', c', hlk, hor⟩
        by_cases hbb : b' = normBase base
        · have hcc : c = c' := by
            rw [hbb, hc] at hlk
            simpa using hlk
          refine ⟨b', c' + 1, ?_, ?_⟩
          · show List.lookup b'
              (ucBump rm.use_count (normBase base)) = some (c' + 1)
            rw [hbb, lookup_ucBump_self, hc, hcc]
            rfl
          · rcases hor with h1 | ⟨k, hk1, hkc, h2⟩
            · exact Or.inl h1
            · exact Or.inr ⟨k, hk1, by omega, h2⟩
        · refine ⟨b', c', ?_, hor⟩
          show List.lookup b' (ucBump rm.use_count (normBase base)) = some c'
          rw [lookup_ucBump_other rm.use_count (normBase base) b' hbb]
          exact hlk

theorem allocRun_fresh : ∀ (bases : List String) (rm : RM), ucWF rm →
    (∀ b ∈ bases, b ≠ "") →
    (allocRun rm bases).1.Nodup ∧
    (∀ n ∈ (allocRun rm bases).1, ¬ covered rm n) := by
  intro bases
  induction bases with
  | nil => intro rm _ _; simp [allocRun]
  | cons b bs ih =>
      intro rm hwf hne
      have hb : b ≠ "" := hne b (by simp)
      obtain ⟨hwf', hfresh, hcov, hmono⟩ := new_name_step rm b hb hwf
      obtain ⟨ihnd, ihfresh⟩ :=
        ih (rm.new_name b).2 hwf' (fun x hx => hne x (by simp [hx]))
      constructor
      · simp only [allocRun]
        refine List.nodup_cons.mpr ⟨?_, ihnd⟩
        intro hmem
        exact (ihfresh _ hmem) hcov
      · intro n hn
        simp only [allocRun, List.mem_cons] at hn
        rcases hn with h1 | h2
        · rw [h1]; exact hfresh
        · intro hcv
          exact (ihfresh n h2) (hmono n hcv)

/-- C4: within one session the name allocator never returns the same name
twice; the names it hands out are pairwise distinct and never equal to a
reserved name (`Quantity`, the base-unit constants, the kernel globals,
`range`). -/
theorem C4_allocator_uniqueness (bases : List String)
    (hne : ∀ b ∈ bases, b ≠ "") :
    (allocRun RM.init bases).1.Nodup ∧
    ∀ n ∈ (allocRun RM.init bases).1, n ∉ reservedNames := by
  obtain ⟨hnd, hfresh⟩ := allocRun_fresh bases RM.init ucWF_init hne
  refine ⟨hnd, ?_⟩
  intro n hn hres
  exact (hfresh n hn) (reserved_covered n hres)

/-- Witness for C4: a request sequence with a repeated base, a
numeric-suffixed base and a reserved base yields four distinct, unreserved
names. -/
theorem C4_allocator_uniqueness_witness :
    (allocRun RM.init ["x", "x", "x1", "Quantity"]).1.Nodup ∧
    ∀ n ∈ (allocRun RM.init ["x", "x", "x1", "Quantity"]).1,
      n ∉ reservedNames :=
  C4_allocator_uniqueness ["x", "x", "x1", "Quantity"] (by decide)

/-- C5: remote-call ids are assigned densely from zero in first-encounter
order — a known callable keeps its id unchanged, a fresh callable receives
the current registry size as its id (keeping the id sequence `0,1,…`), and
from a fresh session the first two distinct callables receive ids 0 and 1
with the first one still answering 0 afterwards. -/
theorem C5_rpc_ids (rm : RM) (f g : Value) :
    (∀ i, rpcLookup f rm.rpc_map = some i → rm.rpcId f = (i, rm)) ∧
    (rpcLookup f rm.rpc_map = none →
      (rm.rpcId f).1 = rm.rpc_map.length ∧
      rpcLookup f (rm.rpcId f).2.rpc_map = some rm.rpc_map.length ∧
      (rpcDense rm → rpcDense (rm.rpcId f).2)) ∧
    (Value.vbeq g f = false →
      (RM.init.rpcId f).1 = 0 ∧
      (((RM.init.rpcId f).2).rpcId g).1 = 1 ∧
      rpcLookup f ((((RM.init.rpcId f).2).rpcId g).2).rpc_map = some 0) := by
  refine ⟨?_, ?_, ?_⟩
  · intro i h; simp [RM.rpcId, h]
  · intro h
    refine ⟨by simp [RM.rpcId, h], ?_, ?_⟩
    · simp only [RM.rpcId, h]
      exact rpcLookup_append_fresh f rm.rpc_map.length rm.rpc_map h
    · intro hd
      simp only [RM.rpcId, h, rpcDense] at hd ⊢
      simp [hd, List.range_succ]
  · intro hgf
    refine ⟨rfl, ?_, ?_⟩
    · simp [RM.rpcId, RM.init, rpcLookup, hgf]
    · simp [RM.rpcId, RM.init, rpcLookup, hgf, Value.vbeq_refl]

/-- Witness for C5 with two concrete distinct host callables. -/
theorem C5_rpc_ids_witness :
    (RM.init.rpcId (.obj 7)).1 = 0 ∧
    (((RM.init.rpcId (.obj 7)).2).rpcId (.obj 8)).1 = 1 ∧
    rpcLookup (.obj 7)
      ((((RM.init.rpcId (.obj 7)).2).rpcId (.obj 8)).2).rpc_map = some 0 :=
  (C5_rpc_ids RM.init (.obj 7) (.obj 8)).2.2 (by decide)

/-- C8: a call whose statically evaluated target is in the embeddable set
is re-emitted as a call to the operation's canonical name over the
recursively resolved arguments — it is neither inlined (a single call node
comes back, not a statement list) nor registered as a remote call (the
manager state is exactly the post-argument-resolution state). -/
theorem C8_embeddable_passthrough (fuel : Nat) (w : World) (rm rm₁ : RM)
    (oid : Nat) (fname : String) (f : Node) (args : List Node)
    (op : EmbedOp) (ras : List TRes)
    (hf : eval_ast w f (callEnv w rm oid fname) = some (.embed op))
    (hargs : visitArgs fuel w rm oid fname args = .ok (ras, rm₁)) :
    visit_Call (fuel + 1) w rm oid fname f args =
      .ok (.one (.call (.name op.pyName .load) (ras.map TRes.toNode)), rm₁) := by
  simp [visit_Call, hf, hargs, exc_bind_ok]

/-- Witness for C8: `range(lim)` in the fixture world embeds to a `range`
call over the resolved literal argument. -/
theorem C8_embeddable_passthrough_witness :
    visit_Call 3 wFixture RM.init 1 "f" (.name "range" .load)
      [.name "lim" .load] =
      .ok (.one (.call (.name "range" .load) [.num 4]), RM.init) :=
  C8_embeddable_passthrough 2 wFixture RM.init RM.init 1 "f"
    (.name "range" .load) [.name "lim" .load] .rangeCls
    [.one (.num 4)] rfl
    (by simp [visitArgs, visit, RM.get, Node.refCtx, RM.getFallback,
      replace_global, eval_ast, moduleOf, wFixture, value_to_ast, RM.init,
      List.lookup, exc_bind_ok])

end Inline
